import Mathlib

/-!
Verification of the Zomato data-cleaning pipeline
(`DS/Task1/Zomato`: `src/data_cleaner.py`, `src/feature_engineer.py`,
`src/quality_checker.py`, `config/settings.py`, `main.py`).

A pandas `DataFrame` is modelled as an ordered list of named columns, each an
ordered list of cells.  A cell is a string, a rational number (modelling a
Python float; the numeric logic of the pipeline never leaves the rationals), or the
missing marker `NaN`/`None` (`Val.null`).  Operations that the Python runtime
can abort with an exception (`KeyError`, `TypeError`) are embedded in
`Except String`.
-/

/-- A cell of a DataFrame: a string, a float (modelled as `ℚ`), or missing
(`np.nan` / `None`). -/
inductive Val where
  | str (s : String)
  | num (q : ℚ)
  | null
  deriving DecidableEq, Repr

namespace Val

/-- Is the cell a string? -/
def isStr : Val → Bool
  | .str _ => true
  | _ => false

/-- Is the cell the missing marker? -/
def isNull : Val → Bool
  | .null => true
  | _ => false

/-- Numeric payload of a cell, if any. -/
def toNum : Val → Option ℚ
  | .num q => some q
  | _ => none

end Val

/-- Kernel-computable embedding of a count into `ℚ` (definitionally the
numeral rational `n/1`; equal to the `Nat.cast` coercion, see `qnat_cast`). -/
def qnat (n : ℕ) : ℚ := Rat.ofInt (Int.ofNat n)

/-- Kernel-computable embedding of an integer into `ℚ`. -/
def qint (m : ℤ) : ℚ := Rat.ofInt m

/-- Lift an optional rational to a cell (`none` is `NaN`). -/
def optVal : Option ℚ → Val
  | some q => .num q
  | none => .null

/-- A named column of a DataFrame. -/
structure Col where
  name : String
  cells : List Val
  deriving DecidableEq, Repr

/-- The count of missing cells in a column (`series.isnull().sum()`). -/
def Col.missing (c : Col) : ℕ := c.cells.countP (·.isNull)

/-- A DataFrame: an ordered list of named columns.  Rows are aligned by
position across columns. -/
structure Table where
  cols : List Col
  deriving DecidableEq, Repr

namespace Table

/-- Column names, in order (`df.columns`). -/
def colNames (t : Table) : List String := t.cols.map Col.name

/-- `len(df)`: the row count, read off the first column (0 for an empty
frame).  For rectangular frames every column has this length. -/
def nrows (t : Table) : ℕ := ((t.cols.head?).map (fun c => c.cells.length)).getD 0

/-- `len(df.columns)`. -/
def ncols (t : Table) : ℕ := t.cols.length

/-- Every column has length `t.nrows` (pandas frames are rectangular by
construction). -/
def Rect (t : Table) : Prop := ∀ c ∈ t.cols, c.cells.length = t.nrows

/-- `col in df.columns`. -/
def hasCol (t : Table) (n : String) : Bool := t.cols.any (fun c => c.name == n)

/-- `df[n]`, as a column (first match). -/
def getCol (t : Table) (n : String) : Option Col := t.cols.find? (fun c => c.name == n)

/-- Cells of column `n` (empty if absent). -/
def getCells (t : Table) (n : String) : List Val :=
  ((t.getCol n).map Col.cells).getD []

/-- `df[n] = series`: replace the cells of every column named `n`, keeping
column order; other columns untouched.  (The callers in the source always set
a column they just read or a fresh derived column; `setCol` is used both for
in-place column assignment and, with `addCol`, for derivation.) -/
def setCol (t : Table) (n : String) (cs : List Val) : Table :=
  ⟨t.cols.map (fun c => if c.name == n then ⟨c.name, cs⟩ else c)⟩

/-- `df[n] = series` when `n` may be a new column: pandas appends a fresh
column at the end if the name is not present. -/
def putCol (t : Table) (n : String) (cs : List Val) : Table :=
  if t.hasCol n then t.setCol n cs else ⟨t.cols ++ [⟨n, cs⟩]⟩

/-- `df.drop(columns=names)`. -/
def dropCols (t : Table) (names : List String) : Table :=
  ⟨t.cols.filter (fun c => ¬ names.contains c.name)⟩

/-- `df.isnull().sum().sum()`: total count of missing cells. -/
def totalMissing (t : Table) : ℕ := (t.cols.map Col.missing).sum

/-- `len(df) * len(df.columns)`. -/
def totalCells (t : Table) : ℕ := t.nrows * t.ncols

/-- Row `i` of the frame, as the list of the `i`-th cell of each column. -/
def row (t : Table) (i : ℕ) : List Val := t.cols.map (fun c => c.cells.getD i .null)

/-- The rows of the frame, in order. -/
def rows (t : Table) : List (List Val) := (List.range t.nrows).map t.row

end Table

/-!  ## Numeric helpers: quantiles, median, rounding  -/

/-- Linear interpolation into a sorted list at fractional position `p`
(the `linear` interpolation of numpy used by `Series.quantile`): with
`i = ⌊p⌋`, the value is `ys[i] + (p − i)·(ys[i+1] − ys[i])` (the second term
vanishes when `i+1` is out of range, i.e. at `p = len−1`). -/
def interpAt (ys : List ℚ) (p : ℚ) : ℚ :=
  let i := (Rat.floor p).toNat
  let a := ys.getD i 0
  let b := ys.getD (i + 1) a
  a + (p - qnat i) * (b - a)

/-- `Series.quantile(q)` over the non-missing values `xs`: `NaN` (`none`) on
an empty series, otherwise linear interpolation at position `q·(n−1)` of the
sorted values. -/
def quantile (xs : List ℚ) (q : ℚ) : Option ℚ :=
  match xs with
  | [] => none
  | _ :: _ => some (interpAt (xs.insertionSort (· ≤ ·)) (q * (qnat xs.length - 1)))

/-- `Series.median()` over the non-missing values: the 0.5 quantile. -/
def seriesMedian (xs : List ℚ) : Option ℚ := quantile xs (1/2)

/-- Round to the nearest integer, ties to even (the rounding used by the Python
built-in `round`; modelled exactly on `ℚ`, whereas Python rounds the nearest
binary double — the two agree away from representation-boundary ties). -/
def roundHalfEven (x : ℚ) : ℤ :=
  let f := Rat.floor x
  let r := x - qint f
  if r < 1/2 then f
  else if 1/2 < r then f + 1
  else if f % 2 = 0 then f else f + 1

/-- The Python call `round(x, 4)`. -/
def round4 (x : ℚ) : ℚ := qint (roundHalfEven (x * 10000)) / 10000

/-!  ## String helpers: `str()`, `strip`, `title`, `float()`, the rating regex -/

/-- `str.strip()` on a character list (ASCII whitespace). -/
def stripL (l : List Char) : List Char :=
  ((l.dropWhile Char.isWhitespace).reverse.dropWhile Char.isWhitespace).reverse

/-- The state machine of `str.title()`: upper-case a cased character that
follows a non-cased one, lower-case the rest (`prev` records whether the
previous character was cased).  ASCII model of the Python title-casing. -/
def titleAux : Bool → List Char → List Char
  | _, [] => []
  | prev, c :: cs =>
      if c.isAlpha then (if prev then c.toLower else c.toUpper) :: titleAux true cs
      else c :: titleAux false cs

/-- `str.title()`. -/
def titleL (l : List Char) : List Char := titleAux false l

/-- `series.str.strip()` payload. -/
def pyStrip (s : String) : String := ⟨stripL s.data⟩

/-- `series.str.title()` payload. -/
def pyTitle (s : String) : String := ⟨titleL s.data⟩

/-- `str(value)` as applied by `astype(str)`: strings unchanged, `NaN`
renders as `"nan"`, numbers render via their decimal representation (the
claims under study never depend on the exact rendering of a number, only on
it being some fixed string; we use `toString` on `ℚ`). -/
def pyStr : Val → String
  | .str s => s
  | .num q => toString q
  | .null => "nan"

/-- `10 ^ z` on `ℚ`, in kernel-computable form. -/
def qpow10 (z : ℤ) : ℚ :=
  if 0 ≤ z then qnat (10 ^ z.toNat) else 1 / qnat (10 ^ (-z).toNat)

/-- Value of a list of ASCII digits. -/
def digitsToNat (ds : List Char) : ℕ := ds.foldl (fun n c => 10 * n + (c.toNat - 48)) 0

/-- The grammar of the Python `float(string)` call after whitespace stripping:
optional sign, digits with an optional point (at least one digit overall),
optional exponent.  (`float` additionally accepts `inf`/`nan` words and
digit-group underscores; the cost/rating data the pipeline parses are plain
decimal numerals, and those extra literal forms lie outside the `ℚ` value
domain of this model.) -/
def pyFloatCore (l : List Char) : Option ℚ :=
  let sgn : ℚ × List Char :=
    match l with
    | '+' :: r => (1, r)
    | '-' :: r => (-1, r)
    | _ => (1, l)
  let ip := sgn.2.takeWhile Char.isDigit
  let r1 := sgn.2.dropWhile Char.isDigit
  let fpr : List Char × List Char :=
    match r1 with
    | '.' :: r => (r.takeWhile Char.isDigit, r.dropWhile Char.isDigit)
    | _ => ([], r1)
  if ip.isEmpty && fpr.1.isEmpty then none
  else
    let mant : ℚ := sgn.1 * (qnat (digitsToNat ip) + qnat (digitsToNat fpr.1) / qnat (10 ^ fpr.1.length))
    match fpr.2 with
    | [] => some mant
    | e :: r3 =>
      if e == 'e' || e == 'E' then
        let es : ℤ × List Char :=
          match r3 with
          | '+' :: r => (1, r)
          | '-' :: r => (-1, r)
          | _ => (1, r3)
        let ed := es.2.takeWhile Char.isDigit
        let r5 := es.2.dropWhile Char.isDigit
        if ed.isEmpty || !r5.isEmpty then none
        else some (mant * qpow10 (es.1 * (digitsToNat ed : ℤ)))
      else none

/-- Python `float(s)` (surrounding whitespace is ignored). -/
def pyFloatOfString (s : String) : Option ℚ := pyFloatCore (stripL s.data)

/-- Leftmost match of the rating regex `(\d+\.?\d*)` in a character list,
converted by `float`: a maximal digit run, an optional point, a further digit
run. -/
def firstNumToken : List Char → Option ℚ
  | [] => none
  | c :: cs =>
    if c.isDigit then
      let ip := (c :: cs).takeWhile Char.isDigit
      let r1 := (c :: cs).dropWhile Char.isDigit
      let fp : List Char :=
        match r1 with
        | '.' :: r => r.takeWhile Char.isDigit
        | _ => []
      some (qnat (digitsToNat ip) + qnat (digitsToNat fp) / qnat (10 ^ fp.length))
    else firstNumToken cs

/-!  ## Configuration (`config/settings.py`, `DataCleaningConfig`)  -/

/-- `DataCleaningConfig.MISSING_THRESHOLD`. -/
def MISSING_THRESHOLD : ℚ := 1/2

/-- `DataCleaningConfig.OUTLIER_IQR_MULTIPLIER`. -/
def OUTLIER_IQR_MULTIPLIER : ℚ := 3/2

/-- `DataCleaningConfig.TEXT_COLUMNS`. -/
def TEXT_COLUMNS : List String := ["name", "location", "rest_type", "cuisines", "dish_liked"]

/-- The name of the cost column. -/
def costColName : String := "approx_cost(for two people)"

/-- `DataCleaningConfig.COST_BINS` (`[0, 500, 1000, 2000, inf]`); `none` stands
for the infinite upper edge `float(inf)`. -/
def COST_BINS : List (Option ℚ) := [some 0, some 500, some 1000, some 2000, none]

/-- `DataCleaningConfig.COST_LABELS`. -/
def COST_LABELS : List String := ["Budget", "Moderate", "Expensive", "Premium"]

/-- `DataCleaningConfig.RATING_BINS` (`[0, 2, 3, 4, 5]`). -/
def RATING_BINS : List (Option ℚ) := [some 0, some 2, some 3, some 4, some 5]

/-- `DataCleaningConfig.RATING_LABELS`. -/
def RATING_LABELS : List String := ["Poor", "Average", "Good", "Excellent"]

/-!  ## `pd.cut` (default `right=True`, `include_lowest=False`)  -/

/-- Strict lower-edge test, `none` being `+∞`. -/
def edgeLt : Option ℚ → ℚ → Bool
  | some x, v => decide (x < v)
  | none, _ => false

/-- Inclusive upper-edge test, `none` being `+∞`. -/
def edgeLe : ℚ → Option ℚ → Bool
  | v, some x => decide (v ≤ x)
  | _, none => true

/-- Scan the consecutive intervals `(lo, e₁], (e₁, e₂], …` for the one
containing `v`. -/
def cutGo (v : ℚ) : Option ℚ → List (Option ℚ) → List String → Option String
  | lo, hi :: es, lab :: ls =>
      if edgeLt lo v && edgeLe v hi then some lab else cutGo v hi es ls
  | _, _, _ => none

/-- The bin label `pd.cut` assigns to a single value: the intervals are
left-open, right-closed; a value outside every interval gets `NaN`. -/
def cutVal (v : ℚ) (edges : List (Option ℚ)) (labels : List String) : Option String :=
  match edges with
  | e :: es => cutGo v e es labels
  | [] => none

/-- `pd.cut` over a column: missing stays missing, a non-numeric cell makes
`pd.cut` raise (`TypeError`). -/
def pdCut (cells : List Val) (edges : List (Option ℚ)) (labels : List String) :
    Except String (List Val) :=
  if cells.any (·.isStr) then .error "TypeError: pd.cut on non-numeric data"
  else .ok (cells.map (fun v =>
    match v.toNum with
    | some q => match cutVal q edges labels with
      | some lab => .str lab
      | none => .null
    | none => .null))

/-!  ## `DataCleaner` (`src/data_cleaner.py`)  -/

/-- `series.fillna(v)`: replace missing cells by `v`.  Filling with `NaN`
(`v = .null`) leaves the series unchanged, as in pandas. -/
def fillna (cells : List Val) (v : Val) : List Val :=
  cells.map (fun c => if c.isNull then v else c)

/-- Coercion applied cell-wise by `series.median()` on the (object-dtype)
cost column: missing is skipped, numbers pass through, numeric strings are
converted (the numpy `astype(float)` coercion), any other string raises. -/
def cellFloat : Val → Except String (Option ℚ)
  | .null => .ok none
  | .num q => .ok (some q)
  | .str s =>
      match pyFloatOfString s with
      | some q => .ok (some q)
      | none => .error "TypeError: could not convert string to float"

/-- `series.median()` on a raw column. -/
def colMedian (cells : List Val) : Except String (Option ℚ) := do
  let vs ← cells.mapM cellFloat
  pure (seriesMedian (vs.filterMap id))

/-- The `imputation_strategy` dict of `handle_missing_values`, in insertion
order.  Its cost entry is the (already computed) cost-column median. -/
def imputationFills (costFill : Val) : List (String × Val) :=
  [("rate", .str "0 out of 5"),
   (costColName, costFill),
   ("cuisines", .str "Unknown"),
   ("dish_liked", .str "Not Specified")]

/-- One iteration of the imputation loop: `df_cleaned[column] =
df_cleaned[column].fillna(strategy)`, guarded by column presence. -/
def fillStep (t : Table) (p : String × Val) : Table :=
  if t.hasCol p.1 then t.setCol p.1 (fillna (t.getCells p.1) p.2) else t

/-- `DataCleaner.handle_missing_values`: drop the columns whose missing count
exceeds `len(df) * MISSING_THRESHOLD`, then fill per-column.  Building the
strategy dict evaluates the median of the cost column
eagerly, *before* any presence check: if the cost column is absent (or was
just dropped) this raises `KeyError`. -/
def handle_missing_values (df : Table) : Except String Table := do
  let threshold : ℚ := qnat df.nrows * MISSING_THRESHOLD
  let columnsToDrop := (df.cols.filter (fun c => qnat c.missing > threshold)).map Col.name
  let dfc := df.dropCols columnsToDrop
  match dfc.getCol costColName with
  | none => .error "KeyError: approx_cost(for two people)"
  | some c => do
    let m ← colMedian c.cells
    let fills := imputationFills (optVal m)
    pure (fills.foldl fillStep dfc)

/-- Keep the first occurrence of each row, in order (`seen` accumulates the
rows already emitted). -/
def dedupFirstAux (seen : List (List Val)) : List (List Val) → List (List Val)
  | [] => []
  | r :: rs => if r ∈ seen then dedupFirstAux seen rs else r :: dedupFirstAux (r :: seen) rs

/-- `df.drop_duplicates()` on the row list (default keep pattern: first). -/
def dedupFirst (l : List (List Val)) : List (List Val) := dedupFirstAux [] l

/-- Rebuild columns named `names` (starting at position `k`) from a row list. -/
def colsFrom (rws : List (List Val)) : List String → ℕ → List Col
  | [], _ => []
  | n :: ns, k => ⟨n, rws.map (fun r => r.getD k .null)⟩ :: colsFrom rws ns (k + 1)

/-- A frame with the given column names and rows. -/
def Table.fromRows (names : List String) (rws : List (List Val)) : Table :=
  ⟨colsFrom rws names 0⟩

/-- `DataCleaner.remove_duplicates`: `df.drop_duplicates()` — drop the rows
that duplicate an earlier row across all columns. -/
def remove_duplicates (df : Table) : Table :=
  .fromRows df.colNames (dedupFirst df.rows)

/-- `astype(str).str.strip().str.title()` on one cell. -/
def cleanText (v : Val) : Val := .str (pyTitle (pyStrip (pyStr v)))

/-- One loop iteration of `standardize_text_columns`: normalize column `col`
when present. -/
def stdStep (t : Table) (col : String) : Table :=
  if t.hasCol col then t.setCol col ((t.getCells col).map cleanText) else t

/-- `DataCleaner.standardize_text_columns`: normalize each configured text
column that is present. -/
def standardize_text_columns (df : Table) : Table :=
  TEXT_COLUMNS.foldl stdStep df

/-- `DataCleaner._extract_rating`: `NaN` for missing; for a string, the
leftmost `(\d+\.?\d*)` match as a float; with no match, `float(value)` is
attempted, which fails on a digit-free string (`ValueError`, caught → `NaN`);
a number passes through `float` unchanged. -/
def extractRating : Val → Option ℚ
  | .null => none
  | .num q => some q
  | .str s => firstNumToken s.data

/-- `DataCleaner._clean_cost`: `NaN` for missing; a string is parsed by
`float` after `replace` removes every comma; a number passes through;
failures are caught and become `NaN`. -/
def cleanCost : Val → Option ℚ
  | .null => none
  | .num q => some q
  | .str s => pyFloatOfString ⟨s.data.filter (fun c => !(c == ','))⟩

/-- `DataCleaner.correct_data_types`: derive `rate_clean` by extraction
filled with the median of the extracted values, and `cost_for_two` by cost
parsing (left unfilled), each only when its source column exists. -/
def correct_data_types (df : Table) : Table :=
  let d1 :=
    if df.hasCol "rate" then
      let extracted := (df.getCells "rate").map extractRating
      let m := seriesMedian (extracted.filterMap id)
      df.putCol "rate_clean" (extracted.map (fun o => optVal (o.orElse (fun _ => m))))
    else df
  if d1.hasCol costColName then
    d1.putCol "cost_for_two" ((d1.getCells costColName).map (fun v => optVal (cleanCost v)))
  else d1

/-- `np.clip`. -/
def clipQ (x lo hi : ℚ) : ℚ := min (max x lo) hi

/-- One iteration of the `handle_outliers` loop: on a present column, compute
the IQR bounds from the quantiles of the non-missing values, count the values
outside, clip into range.  `series.quantile` raises on non-numeric data; on
an all-missing column the bounds are `NaN`, nothing is counted and clipping
is the identity (`np.clip` sends `NaN` to `NaN`). -/
def outlierStep (t : Table) (col : String) : Except String (Table × List (String × ℕ)) :=
  match t.getCol col with
  | none => .ok (t, [])
  | some c =>
    if c.cells.any (·.isStr) then .error "TypeError: quantile on non-numeric data"
    else
      let xs := c.cells.filterMap Val.toNum
      match quantile xs (1/4), quantile xs (3/4) with
      | some q1, some q3 =>
        let iqr := q3 - q1
        let lo := q1 - OUTLIER_IQR_MULTIPLIER * iqr
        let hi := q3 + OUTLIER_IQR_MULTIPLIER * iqr
        let cnt := c.cells.countP (fun v =>
          match v.toNum with
          | some x => decide (x < lo) || decide (hi < x)
          | none => false)
        .ok (t.setCol col (c.cells.map (fun v =>
          match v.toNum with
          | some x => Val.num (clipQ x lo hi)
          | none => Val.null)), [(col, cnt)])
      | _, _ => .ok (t, [(col, 0)])

/-- `DataCleaner.handle_outliers`: treat `rate_clean` then `cost_for_two`;
also return the `outlier_report` handed to the logger. -/
def handle_outliers (df : Table) : Except String (Table × List (String × ℕ)) := do
  let p1 ← outlierStep df "rate_clean"
  let p2 ← outlierStep p1.1 "cost_for_two"
  pure (p2.1, p1.2 ++ p2.2)

/-!  ## `FeatureEngineer` (`src/feature_engineer.py`)  -/

/-- `FeatureEngineer._count_cuisines`: 0 for missing or a sentinel, otherwise
the number of comma-separated chunks of `str(value)` (a number renders
without commas, hence one chunk; `split` on a string without commas, the
empty string included, yields one chunk). -/
def countCuisines : Val → ℕ
  | .null => 0
  | .str s => if s == "Unknown" || s == "Not Specified" then 0 else (s.splitOn ",").length
  | .num _ => 1

/-- `FeatureEngineer.create_features`: add `num_cuisines`, `cost_category`
and `rating_category`, each guarded by the presence of its source column. -/
def create_features (df : Table) : Except String Table := do
  let d1 :=
    if df.hasCol "cuisines" then
      df.putCol "num_cuisines" ((df.getCells "cuisines").map (fun v => .num (qnat (countCuisines v))))
    else df
  let d2 ←
    if d1.hasCol "cost_for_two" then do
      let cs ← pdCut (d1.getCells "cost_for_two") COST_BINS COST_LABELS
      pure (d1.putCol "cost_category" cs)
    else pure d1
  if d2.hasCol "rate_clean" then do
    let rs ← pdCut (d2.getCells "rate_clean") RATING_BINS RATING_LABELS
    pure (d2.putCol "rating_category" rs)
  else pure d2

/-!  ## `QualityChecker` (`src/quality_checker.py`)  -/

/-- `completeness_score` of `QualityChecker._calculate_quality_metrics`:
`round(1 - missing_cells / total_cells, 4) if total_cells > 0 else 0`. -/
def completeness_score (df : Table) : ℚ :=
  if df.totalCells > 0 then round4 (1 - qnat df.totalMissing / qnat df.totalCells) else 0

/-- The `rules` dict of `QualityChecker.validate_data_quality`. -/
structure Rules where
  max_missing_percentage : ℚ
  min_rows : ℕ
  required_columns : List String
  deriving DecidableEq, Repr

/-- The default rules substituted when `rules is None`. -/
def defaultRules : Rules :=
  ⟨5, 100, ["name", "rate_clean", "cost_for_two"]⟩

/-- One outcome line of the validation report.  The source appends formatted
message strings; the report structure (which rule, which data) is modelled as
a tagged value, the presentation text being irrelevant to the logic. -/
inductive Check where
  | rowCountPass (n : ℕ)
  | rowCountFail (n minRequired : ℕ)
  | requiredColsPass
  | requiredColsFail (missingCols : List String)
  | missingPctPass (pct : ℚ)
  | missingPctWarn (pct : ℚ)
  | noNumericWarn
  deriving DecidableEq, Repr

/-- The `validation_report` dict: three outcome lists, appended to in rule
order. -/
structure ValidationReport where
  passed : List Check
  failed : List Check
  warnings : List Check
  deriving DecidableEq, Repr

/-- A column `select_dtypes(include=[np.number])` would keep: in this model,
one with no string cell (an all-missing column reads as `float64`). -/
def Col.isNumeric (c : Col) : Bool := c.cells.all (fun v => !v.isStr)

/-- `len(df.select_dtypes(include=[np.number]).columns)`. -/
def Table.numericColCount (t : Table) : ℕ := (t.cols.filter (fun c => c.isNumeric)).length

/-- `(df.isnull().sum().sum() / (len(df) * len(df.columns))) * 100` — the
source has no zero guard here; `0/0` is `NaN` in numpy and `0` in `ℚ`, and
both fail the `> max_missing_percentage` comparison, so the classification
below is unaffected. -/
def missingPct (df : Table) : ℚ :=
  (qnat df.totalMissing / qnat df.totalCells) * 100

/-- `QualityChecker.validate_data_quality`: evaluate the row-count rule, the
required-columns rule (both appending to `failed_checks` on violation), the
missing-percentage rule and the numeric-columns sanity check (both appending
to `warnings` on violation); validity is the emptiness of `failed_checks`. -/
def validate_data_quality (df : Table) (rules : Option Rules) : Bool × ValidationReport :=
  let r := rules.getD defaultRules
  let rep0 : ValidationReport := ⟨[], [], []⟩
  let rep1 :=
    if df.nrows < r.min_rows then
      { rep0 with failed := rep0.failed ++ [Check.rowCountFail df.nrows r.min_rows] }
    else
      { rep0 with passed := rep0.passed ++ [Check.rowCountPass df.nrows] }
  let missingCols := r.required_columns.filter (fun c => !df.hasCol c)
  let rep2 :=
    if !missingCols.isEmpty then
      { rep1 with failed := rep1.failed ++ [Check.requiredColsFail missingCols] }
    else
      { rep1 with passed := rep1.passed ++ [Check.requiredColsPass] }
  let pct := missingPct df
  let rep3 :=
    if pct > r.max_missing_percentage then
      { rep2 with warnings := rep2.warnings ++ [Check.missingPctWarn pct] }
    else
      { rep2 with passed := rep2.passed ++ [Check.missingPctPass pct] }
  let rep4 :=
    if df.numericColCount == 0 then
      { rep3 with warnings := rep3.warnings ++ [Check.noNumericWarn] }
    else rep3
  (rep4.failed.isEmpty, rep4)

/-!  ## Object store

The frame claim (no operation mutates its argument) is about Python object
identity, so the operations are re-run here over an explicit object store: a
`DataFrame` object is a slot in a list of tables, `df.copy()` and the pandas
methods returning fresh frames allocate a new slot, and in-place column
assignment (`df_cleaned[col] = ...`) writes to the slot of `df_cleaned`.
Each program below mirrors its Python method statement by statement, using
the pure cell-level functions above for the computed values.  -/

/-- The object store: one slot per live `DataFrame`. -/
abbrev Store := List Table

/-- An object reference. -/
abbrev Ref := ℕ

/-- Dereference (an empty frame for a dangling reference). -/
def readRef (s : Store) (r : Ref) : Table := s.getD r ⟨[]⟩

/-- In-place mutation of the referenced frame. -/
def writeRef (s : Store) (r : Ref) (t : Table) : Store := s.set r t

/-- Allocate a fresh frame, returning its reference. -/
def allocRef (s : Store) (t : Table) : Store × Ref := (s ++ [t], s.length)

/-- `handle_missing_values` over the store: copy, conditionally rebind to the
frame returned by `drop`, evaluate the strategy dict (possible `KeyError`),
then fill in place. -/
def hmvProg (s : Store) (df : Ref) : Except String (Store × Ref) :=
  let a := allocRef s (readRef s df)
  let t1 := readRef a.1 a.2
  let threshold : ℚ := qnat t1.nrows * MISSING_THRESHOLD
  let drops := (t1.cols.filter (fun c => qnat c.missing > threshold)).map Col.name
  let b := if drops.isEmpty then a else allocRef a.1 (t1.dropCols drops)
  match (readRef b.1 b.2).getCol costColName with
  | none => .error "KeyError: approx_cost(for two people)"
  | some c => do
    let m ← colMedian c.cells
    let s3 := (imputationFills (optVal m)).foldl (fun st p =>
        let u := readRef st b.2
        if u.hasCol p.1 then writeRef st b.2 (u.setCol p.1 (fillna (u.getCells p.1) p.2))
        else st) b.1
    pure (s3, b.2)

/-- `remove_duplicates` over the store: `drop_duplicates` returns a fresh
frame, nothing is written. -/
def rdProg (s : Store) (df : Ref) : Store × Ref :=
  allocRef s (remove_duplicates (readRef s df))

/-- `standardize_text_columns` over the store: copy, then per-column in-place
assignment. -/
def stdProg (s : Store) (df : Ref) : Store × Ref :=
  let a := allocRef s (readRef s df)
  let s2 := TEXT_COLUMNS.foldl (fun st col =>
      let u := readRef st a.2
      if u.hasCol col then writeRef st a.2 (u.setCol col ((u.getCells col).map cleanText))
      else st) a.1
  (s2, a.2)

/-- `correct_data_types` over the store: copy, then the two guarded derived
column assignments. -/
def cdtProg (s : Store) (df : Ref) : Store × Ref :=
  let a := allocRef s (readRef s df)
  let s2 :=
    let u := readRef a.1 a.2
    if u.hasCol "rate" then
      let extracted := (u.getCells "rate").map extractRating
      let m := seriesMedian (extracted.filterMap id)
      writeRef a.1 a.2 (u.putCol "rate_clean" (extracted.map (fun o => optVal (o.orElse (fun _ => m)))))
    else a.1
  let s3 :=
    let u := readRef s2 a.2
    if u.hasCol costColName then
      writeRef s2 a.2 (u.putCol "cost_for_two" ((u.getCells costColName).map (fun v => optVal (cleanCost v))))
    else s2
  (s3, a.2)

/-- `handle_outliers` over the store: copy, then the per-column quantile,
count and in-place clip (each loop iteration writes the clipped column). -/
def outProg (s : Store) (df : Ref) : Except String (Store × Ref) := do
  let a := allocRef s (readRef s df)
  let p1 ← outlierStep (readRef a.1 a.2) "rate_clean"
  let s2 := writeRef a.1 a.2 p1.1
  let p2 ← outlierStep (readRef s2 a.2) "cost_for_two"
  pure (writeRef s2 a.2 p2.1, a.2)

/-- `create_features` over the store: copy, then the three guarded feature
assignments (`pd.cut` may raise). -/
def cfProg (s : Store) (df : Ref) : Except String (Store × Ref) := do
  let a := allocRef s (readRef s df)
  let s2 :=
    let u := readRef a.1 a.2
    if u.hasCol "cuisines" then
      writeRef a.1 a.2 (u.putCol "num_cuisines" ((u.getCells "cuisines").map (fun v => .num (qnat (countCuisines v)))))
    else a.1
  let u2 := readRef s2 a.2
  let s3 ←
    if u2.hasCol "cost_for_two" then do
      let cs ← pdCut (u2.getCells "cost_for_two") COST_BINS COST_LABELS
      pure (writeRef s2 a.2 (u2.putCol "cost_category" cs))
    else pure s2
  let u3 := readRef s3 a.2
  let s4 ←
    if u3.hasCol "rate_clean" then do
      let rs ← pdCut (u3.getCells "rate_clean") RATING_BINS RATING_LABELS
      pure (writeRef s3 a.2 (u3.putCol "rating_category" rs))
    else pure s3
  pure (s4, a.2)

/-!  ## Basic frame lemmas  -/

namespace Table

theorem hasCol_iff {t : Table} {n : String} :
    t.hasCol n = true ↔ ∃ c ∈ t.cols, c.name = n := by
  simp [hasCol, List.any_eq_true]

theorem getCol_eq_none {t : Table} {n : String} (h : t.hasCol n = false) :
    t.getCol n = none := by
  simp only [hasCol, List.any_eq_false] at h
  simp only [getCol, List.find?_eq_none]
  exact h

theorem getCells_of_not_hasCol {t : Table} {n : String}
    (h : t.hasCol n = false) : t.getCells n = [] := by
  rw [getCells, getCol_eq_none h]
  rfl

theorem colNames_setCol (t : Table) (n : String) (cs : List Val) :
    (t.setCol n cs).colNames = t.colNames := by
  simp only [setCol, colNames, List.map_map]
  apply List.map_congr_left
  intro c _
  simp only [Function.comp_apply]
  split <;> rfl

theorem ncols_setCol (t : Table) (n : String) (cs : List Val) :
    (t.setCol n cs).ncols = t.ncols := by
  simp [setCol, ncols]

theorem hasCol_setCol (t : Table) (n m : String) (cs : List Val) :
    (t.setCol n cs).hasCol m = t.hasCol m := by
  simp only [hasCol, setCol, List.any_map]
  induction t.cols with
  | nil => rfl
  | cons c rest ih =>
    simp only [List.any_cons, ih, Function.comp_apply]
    congr 1
    split <;> rfl

theorem getCol_setCol_self (t : Table) (n : String) (cs : List Val) :
    (t.setCol n cs).getCol n = (t.getCol n).map (fun c => ⟨c.name, cs⟩) := by
  simp only [setCol, getCol]
  induction t.cols with
  | nil => rfl
  | cons c rest ih =>
    by_cases hc : c.name = n
    · simp [List.find?_cons, hc]
    · simpa [List.find?_cons, hc] using ih

theorem getCol_setCol_ne (t : Table) {n m : String} (cs : List Val)
    (h : n ≠ m) : (t.setCol n cs).getCol m = t.getCol m := by
  simp only [setCol, getCol]
  induction t.cols with
  | nil => rfl
  | cons c rest ih =>
    by_cases hc : c.name = n
    · have hm : ¬ (c.name = m) := by
        rw [hc]
        exact h
      simpa [List.find?_cons, hc, hm, h] using ih
    · by_cases hm : c.name = m
      · have hmn : ¬ (m = n) := fun hh => h hh.symm
        simp [List.find?_cons, hc, hm, h, hmn]
      · simpa [List.find?_cons, hc, hm, h] using ih

theorem getCells_setCol_self {t : Table} {n : String} (cs : List Val)
    (h : t.hasCol n = true) : (t.setCol n cs).getCells n = cs := by
  rw [getCells, getCol_setCol_self]
  have : (t.getCol n).isSome := by
    rw [getCol, List.find?_isSome]
    rcases hasCol_iff.mp h with ⟨c, hc, hcn⟩
    exact ⟨c, hc, by simpa using hcn⟩
  rcases Option.isSome_iff_exists.mp this with ⟨c, hc⟩
  simp [hc]

theorem getCells_setCol_ne {t : Table} {n m : String} (cs : List Val)
    (h : n ≠ m) : (t.setCol n cs).getCells m = t.getCells m := by
  rw [getCells, getCol_setCol_ne t cs h, getCells]

theorem setCol_eq_self {t : Table} {n : String} {cs : List Val}
    (h : ∀ c ∈ t.cols, c.name = n → c.cells = cs) : t.setCol n cs = t := by
  simp only [setCol]
  congr 1
  have : ∀ c ∈ t.cols,
      (if (c.name == n) = true then (⟨c.name, cs⟩ : Col) else c) = id c := by
    intro c hc
    by_cases hn : (c.name == n) = true
    · have := h c hc (by simpa using hn)
      simp [hn, ← this]
    · simp [hn]
  rw [List.map_congr_left this, List.map_id]

theorem hasCol_putCol (t : Table) (n m : String) (cs : List Val) :
    (t.putCol n cs).hasCol m = (t.hasCol m || n == m) := by
  simp only [putCol]
  by_cases h : t.hasCol n
  · rw [if_pos h, hasCol_setCol]
    by_cases hnm : n == m
    · have : n = m := by simpa using hnm
      subst this
      simp [h, hnm]
    · simp [hnm]
  · rw [if_neg h]
    simp [hasCol, List.any_append]

theorem getCells_putCol_self (t : Table) (n : String) (cs : List Val) :
    (t.putCol n cs).getCells n = cs := by
  simp only [putCol]
  by_cases h : t.hasCol n
  · rw [if_pos h]
    exact getCells_setCol_self cs h
  · rw [if_neg h]
    have hn : t.cols.find? (fun c => c.name == n) = none := by
      have := getCol_eq_none (t := t) (n := n) (by simpa using h)
      simpa [getCol] using this
    simp [getCells, getCol, List.find?_append, hn, List.find?]

theorem getCells_putCol_ne (t : Table) {n m : String} (cs : List Val)
    (h : n ≠ m) : (t.putCol n cs).getCells m = t.getCells m := by
  simp only [putCol]
  by_cases hp : t.hasCol n
  · rw [if_pos hp]
    exact getCells_setCol_ne cs h
  · rw [if_neg hp]
    simp only [getCells, getCol, List.find?_append]
    cases hf : t.cols.find? (fun c => c.name == m) with
    | some c => simp [hf]
    | none =>
      have hnm : ((n : String) == m) = false := by simpa using h
      simp [hf, List.find?, hnm]

end Table

/-!  ## Frame lemmas for the object store  -/

theorem exceptBind_ok {e a b : Type} (x : a) (f : a → Except e b) :
    (Except.ok x >>= f) = f x := rfl

theorem exceptBind_error {e a b : Type} (err : e) (f : a → Except e b) :
    ((Except.error err : Except e a) >>= f) = Except.error err := rfl

theorem exceptPure {e a : Type} (x : a) : (pure x : Except e a) = Except.ok x := rfl

theorem readRef_append {s : Store} {df : Ref} (h : df < s.length) (t : Table) :
    readRef (s ++ [t]) df = readRef s df := by
  simp [readRef, List.getD_eq_getElem?_getD, List.getElem?_append_left h]

theorem readRef_write_ne {s : Store} {r df : Ref} (h : df ≠ r) (t : Table) :
    readRef (writeRef s r t) df = readRef s df := by
  simp [readRef, writeRef, List.getD_eq_getElem?_getD, List.getElem?_set_ne (Ne.symm h)]

theorem readRef_foldl_frame {α : Type} {df : Ref} (f : Store → α → Store)
    (hf : ∀ st a, readRef (f st a) df = readRef st df) :
    ∀ (l : List α) (st : Store), readRef (l.foldl f st) df = readRef st df := by
  intro l
  induction l with
  | nil => intro st; rfl
  | cons a l ih =>
    intro st
    rw [List.foldl_cons, ih, hf]

theorem hmvProg_frame {s : Store} {df : Ref} {s' : Store} {r : Ref}
    (h : df < s.length) (he : hmvProg s df = .ok (s', r)) :
    readRef s' df = readRef s df := by
  simp only [hmvProg, allocRef] at he
  have hfold : ∀ (k : Ref) (base : Store) (fills : List (String × Val)),
      df ≠ k →
      readRef base df = readRef s df →
      readRef (fills.foldl (fun st p =>
        if (readRef st k).hasCol p.1 = true then
          writeRef st k ((readRef st k).setCol p.1 (fillna ((readRef st k).getCells p.1) p.2))
        else st) base) df = readRef s df := by
    intro k base fills hk hbase
    rw [readRef_foldl_frame _ ?step, hbase]
    intro st p
    by_cases hc : (readRef st k).hasCol p.1
    · rw [if_pos hc, readRef_write_ne hk]
    · rw [if_neg hc]
  by_cases hd : (List.map Col.name (List.filter
      (fun c => decide (qnat c.missing > qnat (readRef (s ++ [readRef s df]) s.length).nrows * MISSING_THRESHOLD))
      (readRef (s ++ [readRef s df]) s.length).cols)).isEmpty
  · rw [if_pos hd] at he
    cases hg : (readRef (s ++ [readRef s df]) s.length).getCol costColName with
    | none =>
      rw [hg] at he
      exact absurd he (by simp)
    | some c =>
      rw [hg] at he
      cases hm : colMedian c.cells with
      | error e =>
        simp only [hm, exceptBind_error] at he
        exact absurd he (by simp)
      | ok m =>
        simp only [hm, exceptBind_ok, exceptPure, Except.ok.injEq, Prod.mk.injEq] at he
        rw [← he.1]
        exact hfold _ _ _ (Nat.ne_of_lt h) (readRef_append h _)
  · rw [if_neg hd] at he
    cases hg : (readRef ((s ++ [readRef s df]) ++ [Table.dropCols _ _]) (s ++ [readRef s df]).length).getCol costColName with
    | none =>
      rw [hg] at he
      exact absurd he (by simp)
    | some c =>
      rw [hg] at he
      cases hm : colMedian c.cells with
      | error e =>
        simp only [hm, exceptBind_error] at he
        exact absurd he (by simp)
      | ok m =>
        simp only [hm, exceptBind_ok, exceptPure, Except.ok.injEq, Prod.mk.injEq] at he
        rw [← he.1]
        refine hfold _ _ _ ?_ ?_
        · simp only [List.length_append, List.length_cons, List.length_nil]
          exact Nat.ne_of_lt (Nat.lt_succ_of_lt h)
        · rw [readRef_append (by simpa using Nat.lt_succ_of_lt h), readRef_append h]

theorem rdProg_frame {s : Store} {df : Ref} (h : df < s.length) :
    readRef (rdProg s df).1 df = readRef s df := by
  simp only [rdProg, allocRef]
  exact readRef_append h _

theorem stdProg_frame {s : Store} {df : Ref} (h : df < s.length) :
    readRef (stdProg s df).1 df = readRef s df := by
  simp only [stdProg, allocRef]
  rw [readRef_foldl_frame _ ?step]
  · exact readRef_append h _
  · intro st col
    by_cases hc : (readRef st s.length).hasCol col
    · rw [if_pos hc, readRef_write_ne (Nat.ne_of_lt h)]
    · rw [if_neg hc]

theorem cdtProg_frame {s : Store} {df : Ref} (h : df < s.length) :
    readRef (cdtProg s df).1 df = readRef s df := by
  simp only [cdtProg, allocRef]
  have hne : df ≠ s.length := Nat.ne_of_lt h
  split
  · split
    · rw [readRef_write_ne hne, readRef_write_ne hne]
      exact readRef_append h _
    · rw [readRef_write_ne hne]
      exact readRef_append h _
  · split
    · rw [readRef_write_ne hne]
      exact readRef_append h _
    · exact readRef_append h _

theorem outProg_frame {s : Store} {df : Ref} {s' : Store} {r : Ref}
    (h : df < s.length) (he : outProg s df = .ok (s', r)) :
    readRef s' df = readRef s df := by
  simp only [outProg, allocRef] at he
  have hne : df ≠ s.length := Nat.ne_of_lt h
  cases h1 : outlierStep (readRef (s ++ [readRef s df]) s.length) "rate_clean" with
  | error e =>
    simp only [h1, exceptBind_error] at he
    exact absurd he (by simp)
  | ok p1 =>
    simp only [h1, exceptBind_ok] at he
    cases h2 : outlierStep
        (readRef (writeRef (s ++ [readRef s df]) s.length p1.1) s.length) "cost_for_two" with
    | error e =>
      simp only [h2, exceptBind_error] at he
      exact absurd he (by simp)
    | ok p2 =>
      simp only [h2, exceptBind_ok, exceptPure, Except.ok.injEq, Prod.mk.injEq] at he
      rw [← he.1, readRef_write_ne hne, readRef_write_ne hne, readRef_append h]

theorem cfProg_frame {s : Store} {df : Ref} {s' : Store} {r : Ref}
    (h : df < s.length) (he : cfProg s df = .ok (s', r)) :
    readRef s' df = readRef s df := by
  simp only [cfProg, allocRef] at he
  have hne : df ≠ s.length := Nat.ne_of_lt h
  have hbase : readRef (s ++ [readRef s df]) df = readRef s df := readRef_append h _
  have hw : ∀ (st : Store) (t : Table), readRef st df = readRef s df →
      readRef (writeRef st s.length t) df = readRef s df := by
    intro st t hst
    rw [readRef_write_ne hne, hst]
  by_cases h1 : (readRef (s ++ [readRef s df]) s.length).hasCol "cuisines" <;>
    [rw [if_pos h1] at he; rw [if_neg h1] at he] <;>
    [skip; skip]
  case pos =>
    set s2 := writeRef (s ++ [readRef s df]) s.length _ with hs2
    have hst2 : readRef s2 df = readRef s df := hw _ _ hbase
    by_cases h2 : (readRef s2 s.length).hasCol "cost_for_two"
    · rw [if_pos h2] at he
      cases hc : pdCut ((readRef s2 s.length).getCells "cost_for_two") COST_BINS COST_LABELS with
      | error e =>
        simp only [hc, exceptBind_error] at he
        exact absurd he (by simp)
      | ok cs =>
        simp only [hc, exceptBind_ok, exceptPure] at he
        set s3 := writeRef s2 s.length _ with hs3
        have hst3 : readRef s3 df = readRef s df := hw _ _ hst2
        by_cases h3 : (readRef s3 s.length).hasCol "rate_clean"
        · rw [if_pos h3] at he
          cases hr : pdCut ((readRef s3 s.length).getCells "rate_clean") RATING_BINS RATING_LABELS with
          | error e =>
            simp only [hr, exceptBind_error] at he
            exact absurd he (by simp)
          | ok rs =>
            simp only [hr, exceptBind_ok, exceptPure, Except.ok.injEq, Prod.mk.injEq] at he
            rw [← he.1]
            exact hw _ _ hst3
        · rw [if_neg h3] at he
          simp only [exceptPure, Except.ok.injEq, Prod.mk.injEq] at he
          rw [← he.1]
          exact hst3
    · rw [if_neg h2] at he
      simp only [exceptPure, exceptBind_ok] at he
      by_cases h3 : (readRef s2 s.length).hasCol "rate_clean"
      · rw [if_pos h3] at he
        cases hr : pdCut ((readRef s2 s.length).getCells "rate_clean") RATING_BINS RATING_LABELS with
        | error e =>
          simp only [hr, exceptBind_error] at he
          exact absurd he (by simp)
        | ok rs =>
          simp only [hr, exceptBind_ok, exceptPure, Except.ok.injEq, Prod.mk.injEq] at he
          rw [← he.1]
          exact hw _ _ hst2
      · rw [if_neg h3] at he
        simp only [exceptPure, Except.ok.injEq, Prod.mk.injEq] at he
        rw [← he.1]
        exact hst2
  case neg =>
    by_cases h2 : (readRef (s ++ [readRef s df]) s.length).hasCol "cost_for_two"
    · rw [if_pos h2] at he
      cases hc : pdCut ((readRef (s ++ [readRef s df]) s.length).getCells "cost_for_two") COST_BINS COST_LABELS with
      | error e =>
        simp only [hc, exceptBind_error] at he
        exact absurd he (by simp)
      | ok cs =>
        simp only [hc, exceptBind_ok, exceptPure] at he
        set s3 := writeRef (s ++ [readRef s df]) s.length _ with hs3
        have hst3 : readRef s3 df = readRef s df := hw _ _ hbase
        by_cases h3 : (readRef s3 s.length).hasCol "rate_clean"
        · rw [if_pos h3] at he
          cases hr : pdCut ((readRef s3 s.length).getCells "rate_clean") RATING_BINS RATING_LABELS with
          | error e =>
            simp only [hr, exceptBind_error] at he
            exact absurd he (by simp)
          | ok rs =>
            simp only [hr, exceptBind_ok, exceptPure, Except.ok.injEq, Prod.mk.injEq] at he
            rw [← he.1]
            exact hw _ _ hst3
        · rw [if_neg h3] at he
          simp only [exceptPure, Except.ok.injEq, Prod.mk.injEq] at he
          rw [← he.1]
          exact hst3
    · rw [if_neg h2] at he
      simp only [exceptPure, exceptBind_ok] at he
      by_cases h3 : (readRef (s ++ [readRef s df]) s.length).hasCol "rate_clean"
      · rw [if_pos h3] at he
        cases hr : pdCut ((readRef (s ++ [readRef s df]) s.length).getCells "rate_clean") RATING_BINS RATING_LABELS with
        | error e =>
          simp only [hr, exceptBind_error] at he
          exact absurd he (by simp)
        | ok rs =>
          simp only [hr, exceptBind_ok, exceptPure, Except.ok.injEq, Prod.mk.injEq] at he
          rw [← he.1]
          exact hw _ _ hbase
      · rw [if_neg h3] at he
        simp only [exceptPure, Except.ok.injEq, Prod.mk.injEq] at he
        rw [← he.1]
        exact hbase

/-!  ## Claim theorems  -/

deriving instance DecidableEq for Except

unseal Rat.mul Rat.add Rat.sub Rat.inv in
/-- C1 (code bug): the spec promises that every cleaner operation tolerates a
missing source column, but `handle_missing_values` evaluates the median of
the cost column while building its strategy dict, before any presence check:
on a table without `approx_cost(for two people)` — whether absent from the
input (first conjunct) or dropped by the sparse-column threshold (second
conjunct, a 2-row table whose cost column is entirely missing) — it raises
`KeyError` instead of returning normally. -/
theorem claim_c1_hmv_keyerror_on_missing_cost :
    handle_missing_values ⟨[⟨"rate", [Val.str "4.1/5"]⟩]⟩ =
      .error "KeyError: approx_cost(for two people)" ∧
    handle_missing_values ⟨[⟨"rate", [Val.str "4.1/5", Val.str "3.8/5"]⟩,
        ⟨costColName, [Val.null, Val.null]⟩]⟩ =
      .error "KeyError: approx_cost(for two people)" := by
  exact ⟨by decide, by decide⟩

unseal Rat.mul Rat.add Rat.sub Rat.inv in
/-- C2 (counterexample): `pd.cut` with the configured bins is left-open and
right-closed, not left-closed: on a one-row table with cost 0 and rating 0,
`create_features` labels both categories as missing (`NaN`), not
Budget/Poor as the claim states. -/
theorem claim_c2_counterexample :
    (create_features ⟨[⟨"cost_for_two", [Val.num 0]⟩, ⟨"rate_clean", [Val.num 0]⟩]⟩).map
        (fun t => (t.getCells "cost_category", t.getCells "rating_category")) =
      .ok ([Val.null], [Val.null]) ∧
    ¬ ((create_features ⟨[⟨"cost_for_two", [Val.num 0]⟩, ⟨"rate_clean", [Val.num 0]⟩]⟩).map
        (fun t => (t.getCells "cost_category", t.getCells "rating_category")) =
      .ok ([Val.str "Budget"], [Val.str "Poor"])) := by
  exact ⟨by decide, by decide⟩

unseal Rat.mul Rat.add Rat.sub Rat.inv in
/-- C2 (amended): `create_features` bins cost via `pd.cut` into the
left-open right-closed intervals `(0,500], (500,1000], (1000,2000], (2000,∞)`
labeled Budget/Moderate/Expensive/Premium, and rating into
`(0,2], (2,3], (3,4], (4,5]` labeled Poor/Average/Good/Excellent; a value
outside all bins (at most 0, or above 5 for ratings) maps to the missing
category.  In particular a cost of exactly 0 is unlabeled, cost 500 is
Budget, rating 2.0 is Poor, and rating 0 is unlabeled, as the concrete
`create_features` run in the final conjunct shows. -/
theorem claim_c2_amended_bins :
    (∀ v : ℚ,
      cutVal v COST_BINS COST_LABELS =
        (if v ≤ 0 then none
         else if v ≤ 500 then some "Budget"
         else if v ≤ 1000 then some "Moderate"
         else if v ≤ 2000 then some "Expensive"
         else some "Premium") ∧
      cutVal v RATING_BINS RATING_LABELS =
        (if v ≤ 0 then none
         else if v ≤ 2 then some "Poor"
         else if v ≤ 3 then some "Average"
         else if v ≤ 4 then some "Good"
         else if v ≤ 5 then some "Excellent"
         else none)) ∧
    (create_features ⟨[⟨"cost_for_two", [Val.num 0, Val.num 500, Val.num 2500]⟩,
        ⟨"rate_clean", [Val.num 0, Val.num 2, Val.num (9/2)]⟩]⟩).map
        (fun t => (t.getCells "cost_category", t.getCells "rating_category")) =
      .ok ([Val.null, Val.str "Budget", Val.str "Premium"],
           [Val.null, Val.str "Poor", Val.str "Excellent"]) := by
  refine ⟨fun v => ⟨?_, ?_⟩, by decide⟩
  · rcases le_or_lt v 0 with h0 | h0
    · have h1 : ¬ (0 < v) := not_lt.mpr h0
      have h2 : ¬ (500 < v) := not_lt.mpr (by linarith)
      have h3 : ¬ (1000 < v) := not_lt.mpr (by linarith)
      have h4 : ¬ (2000 < v) := not_lt.mpr (by linarith)
      simp [cutVal, cutGo, COST_BINS, COST_LABELS, edgeLt, edgeLe, h0, h1, h2, h3, h4]
    · rcases le_or_lt v 500 with h5 | h5
      · simp [cutVal, cutGo, COST_BINS, COST_LABELS, edgeLt, edgeLe, h0, h5, not_le.mpr h0]
      · rcases le_or_lt v 1000 with h6 | h6
        · simp [cutVal, cutGo, COST_BINS, COST_LABELS, edgeLt, edgeLe, h0, h5, h6,
            not_le.mpr h0, not_le.mpr h5, not_lt.mpr h6]
        · rcases le_or_lt v 2000 with h7 | h7
          · simp [cutVal, cutGo, COST_BINS, COST_LABELS, edgeLt, edgeLe, h6, h7,
              not_le.mpr h0, not_le.mpr h5, not_le.mpr h6, not_lt.mpr h7]
          · simp [cutVal, cutGo, COST_BINS, COST_LABELS, edgeLt, edgeLe, h7,
              not_le.mpr h0, not_le.mpr h5, not_le.mpr h6, not_le.mpr h7]
  · rcases le_or_lt v 0 with h0 | h0
    · have h1 : ¬ (0 < v) := not_lt.mpr h0
      have h2 : ¬ (2 < v) := not_lt.mpr (by linarith)
      have h3 : ¬ (3 < v) := not_lt.mpr (by linarith)
      have h4 : ¬ (4 < v) := not_lt.mpr (by linarith)
      simp [cutVal, cutGo, RATING_BINS, RATING_LABELS, edgeLt, edgeLe, h0, h1, h2, h3, h4]
    · rcases le_or_lt v 2 with h5 | h5
      · simp [cutVal, cutGo, RATING_BINS, RATING_LABELS, edgeLt, edgeLe, h0, h5, not_le.mpr h0]
      · rcases le_or_lt v 3 with h6 | h6
        · simp [cutVal, cutGo, RATING_BINS, RATING_LABELS, edgeLt, edgeLe, h0, h5, h6,
            not_le.mpr h0, not_le.mpr h5, not_lt.mpr h6]
        · rcases le_or_lt v 4 with h7 | h7
          · simp [cutVal, cutGo, RATING_BINS, RATING_LABELS, edgeLt, edgeLe, h6, h7,
              not_le.mpr h0, not_le.mpr h5, not_le.mpr h6, not_lt.mpr h7]
          · rcases le_or_lt v 5 with h8 | h8
            · simp [cutVal, cutGo, RATING_BINS, RATING_LABELS, edgeLt, edgeLe, h7, h8,
                not_le.mpr h0, not_le.mpr h5, not_le.mpr h6, not_le.mpr h7, not_lt.mpr h8]
            · simp [cutVal, cutGo, RATING_BINS, RATING_LABELS, edgeLt, edgeLe, h8,
                not_le.mpr h0, not_le.mpr h5, not_le.mpr h6, not_le.mpr h7, not_le.mpr h8]

/-- The 50-row validation-scenario table: required columns present, no
missing cells. -/
def table50 : Table :=
  ⟨[⟨"name", List.replicate 50 (Val.str "x")⟩,
    ⟨"rate_clean", List.replicate 50 (Val.num 4)⟩,
    ⟨"cost_for_two", List.replicate 50 (Val.num 100)⟩]⟩

unseal Rat.mul Rat.add Rat.sub Rat.inv in
/-- C6: `validate_data_quality` classifies rule outcomes so that row-count
and required-column violations go to the failed list, missing-percentage
violations (and the numeric-columns sanity check) go to the warnings list
only, and overall validity holds iff the failed list is empty — equivalently
iff the row-count and required-columns rules are satisfied.  On the 50-row
table against the default minimum of 100 rows, validity is false with
exactly one failed check, referencing the row-count rule. -/
theorem claim_c6_validation :
    (∀ (df : Table) (rules : Option Rules),
      ((validate_data_quality df rules).1 = true ↔
        ((rules.getD defaultRules).min_rows ≤ df.nrows ∧
          ∀ c ∈ (rules.getD defaultRules).required_columns, df.hasCol c = true)) ∧
      (∀ ch ∈ (validate_data_quality df rules).2.failed,
        (∃ a b, ch = Check.rowCountFail a b) ∨ ∃ ms, ch = Check.requiredColsFail ms) ∧
      (∀ ch ∈ (validate_data_quality df rules).2.warnings,
        (∃ p, ch = Check.missingPctWarn p) ∨ ch = Check.noNumericWarn)) ∧
    validate_data_quality table50 none =
      (false, ⟨[Check.requiredColsPass, Check.missingPctPass 0],
        [Check.rowCountFail 50 100], []⟩) := by
  refine ⟨fun df rules => ?_, by decide⟩
  have hfailed : (validate_data_quality df rules).2.failed =
      (if df.nrows < (rules.getD defaultRules).min_rows then
        [Check.rowCountFail df.nrows (rules.getD defaultRules).min_rows] else []) ++
      (if (((rules.getD defaultRules).required_columns.filter
          (fun c => !df.hasCol c)).isEmpty = true) then [] else
        [Check.requiredColsFail ((rules.getD defaultRules).required_columns.filter
          (fun c => !df.hasCol c))]) := by
    by_cases hr : df.nrows < (rules.getD defaultRules).min_rows <;>
      by_cases hc : (((rules.getD defaultRules).required_columns.filter
        (fun c => !df.hasCol c)).isEmpty = true) <;>
      by_cases hp : missingPct df > (rules.getD defaultRules).max_missing_percentage <;>
      by_cases hn : df.numericColCount = 0 <;>
      simp [validate_data_quality, hr, hc, hp, hn]
  have hwarn : (validate_data_quality df rules).2.warnings =
      (if missingPct df > (rules.getD defaultRules).max_missing_percentage then
        [Check.missingPctWarn (missingPct df)] else []) ++
      (if df.numericColCount = 0 then [Check.noNumericWarn] else []) := by
    by_cases hr : df.nrows < (rules.getD defaultRules).min_rows <;>
      by_cases hc : (((rules.getD defaultRules).required_columns.filter
        (fun c => !df.hasCol c)).isEmpty = true) <;>
      by_cases hp : missingPct df > (rules.getD defaultRules).max_missing_percentage <;>
      by_cases hn : df.numericColCount = 0 <;>
      simp [validate_data_quality, hr, hc, hp, hn]
  have hvalid : (validate_data_quality df rules).1 =
      ((validate_data_quality df rules).2.failed.isEmpty) := by
    by_cases hr : df.nrows < (rules.getD defaultRules).min_rows <;>
      by_cases hc : (((rules.getD defaultRules).required_columns.filter
        (fun c => !df.hasCol c)).isEmpty = true) <;>
      by_cases hp : missingPct df > (rules.getD defaultRules).max_missing_percentage <;>
      by_cases hn : df.numericColCount = 0 <;>
      simp [validate_data_quality, hr, hc, hp, hn]
  refine ⟨?_, ?_, ?_⟩
  · rw [hvalid, hfailed]
    by_cases hr : df.nrows < (rules.getD defaultRules).min_rows <;>
      by_cases hc : (((rules.getD defaultRules).required_columns.filter
        (fun c => !df.hasCol c)).isEmpty = true)
    · simp [hr, hc]
    · simp [hr, hc]
    · simp [hr, hc]
      refine ⟨not_lt.mp hr, fun c hcc => ?_⟩
      have := List.filter_eq_nil_iff.mp (List.isEmpty_iff.mp hc) c hcc
      simpa using this
    · simp [hr, hc]
      intro _
      have hne : (rules.getD defaultRules).required_columns.filter (fun c => !df.hasCol c) ≠ [] :=
        fun hnil => hc (by simp [hnil])
      rcases List.exists_mem_of_ne_nil _ hne with ⟨c, hcmem⟩
      rcases List.mem_filter.mp hcmem with ⟨hcin, hcb⟩
      exact ⟨c, hcin, by simpa using hcb⟩
  · rw [hfailed]
    intro ch hch
    by_cases hr : df.nrows < (rules.getD defaultRules).min_rows <;>
      by_cases hc : (((rules.getD defaultRules).required_columns.filter
        (fun c => !df.hasCol c)).isEmpty = true) <;>
      simp [hr, hc] at hch <;>
      try rcases hch with rfl | rfl <;>
      first
      | exact Or.inl ⟨_, _, rfl⟩
      | exact Or.inr ⟨_, rfl⟩
  · rw [hwarn]
    intro ch hch
    by_cases hp : missingPct df > (rules.getD defaultRules).max_missing_percentage <;>
      by_cases hn : df.numericColCount = 0 <;>
      simp [hp, hn] at hch <;>
      try rcases hch with rfl | rfl <;>
      first
      | exact Or.inl ⟨_, rfl⟩
      | exact Or.inr rfl

unseal Rat.mul Rat.add Rat.sub Rat.inv in
/-- Witness for C6: on the concrete 50-row table the single failed check,
looked up through the claim theorem, is a row-count failure. -/
theorem claim_c6_validation_witness :
    (∃ a b, Check.rowCountFail 50 100 = Check.rowCountFail a b) ∨
      ∃ ms, Check.rowCountFail 50 100 = Check.requiredColsFail ms :=
  (claim_c6_validation.1 table50 none).2.1 (Check.rowCountFail 50 100)
    (by rw [show (validate_data_quality table50 none).2.failed =
      [Check.rowCountFail 50 100] by decide]; exact List.mem_singleton.mpr rfl)

/-!  ## Numeric bridge lemmas and rounding facts  -/

theorem qnat_cast (n : ℕ) : qnat n = (n : ℚ) := by
  rw [qnat, Rat.ofInt_eq_cast]
  exact_mod_cast rfl

theorem qint_cast (m : ℤ) : qint m = (m : ℚ) := Rat.ofInt_eq_cast m

theorem ratFloor_eq (x : ℚ) : Rat.floor x = ⌊x⌋ := rfl

theorem roundHalfEven_eq (x : ℚ) :
    roundHalfEven x =
      (if x - ⌊x⌋ < 1/2 then ⌊x⌋
       else if 1/2 < x - ⌊x⌋ then ⌊x⌋ + 1
       else if (⌊x⌋ : ℤ) % 2 = 0 then ⌊x⌋ else ⌊x⌋ + 1) := by
  rw [roundHalfEven, ratFloor_eq, qint_cast]

theorem roundHalfEven_ge (x : ℚ) : ⌊x⌋ ≤ roundHalfEven x := by
  rw [roundHalfEven_eq]
  split_ifs <;> omega

theorem roundHalfEven_le (x : ℚ) : roundHalfEven x ≤ ⌊x⌋ + 1 := by
  rw [roundHalfEven_eq]
  split_ifs <;> omega

theorem roundHalfEven_mono {x y : ℚ} (h : x ≤ y) :
    roundHalfEven x ≤ roundHalfEven y := by
  rcases lt_or_eq_of_le (Int.floor_le_floor h) with hf | hf
  · calc roundHalfEven x ≤ ⌊x⌋ + 1 := roundHalfEven_le x
      _ ≤ ⌊y⌋ := by omega
      _ ≤ roundHalfEven y := roundHalfEven_ge y
  · rw [roundHalfEven_eq, roundHalfEven_eq, ← hf]
    split_ifs <;> first | omega | linarith

theorem roundHalfEven_intCast (m : ℤ) : roundHalfEven (m : ℚ) = m := by
  rw [roundHalfEven_eq]
  simp [Int.floor_intCast]

theorem roundHalfEven_eq_top {x : ℚ} (hx : x ≤ 10000) :
    roundHalfEven x = 10000 ↔ 9999 + 1/2 ≤ x := by
  constructor
  · intro hr
    by_contra hlt
    push_neg at hlt
    have hfl : ⌊x⌋ ≤ 9999 := by
      have : (⌊x⌋ : ℚ) ≤ x := Int.floor_le x
      have h2 : (⌊x⌋ : ℚ) < 9999 + 1/2 := lt_of_le_of_lt this hlt
      exact_mod_cast Int.lt_add_one_iff.mp (by exact_mod_cast (by linarith : (⌊x⌋ : ℚ) < 10000))
    rcases eq_or_lt_of_le hfl with hfe | hfs
    · rw [roundHalfEven_eq] at hr
      have hrlt : x - ⌊x⌋ < 1/2 := by
        rw [hfe]
        push_cast
        linarith
      rw [if_pos hrlt] at hr
      omega
    · have := roundHalfEven_le x
      omega
  · intro hge
    rcases eq_or_lt_of_le hx with he | hlt
    · rw [he]
      exact_mod_cast roundHalfEven_intCast 10000
    · have hfl : ⌊x⌋ = 9999 := by
        apply Int.floor_eq_iff.mpr
        constructor
        · push_cast
          linarith
        · push_cast
          linarith
      rw [roundHalfEven_eq, hfl]
      have hr2 : ¬ (x - (9999 : ℤ) < 1/2) := by
        push_neg
        push_cast
        linarith
      rw [if_neg hr2]
      rcases lt_or_eq_of_le (not_lt.mp hr2) with hgt | heq
      · rw [if_pos hgt]
        norm_num
      · rw [if_neg (by rw [← heq]; exact lt_irrefl _)]
        norm_num

theorem countP_replicate (p : Val → Bool) (n : ℕ) (a : Val) :
    (List.replicate n a).countP p = if p a then n else 0 := by
  induction n with
  | zero => simp
  | succ k ih =>
    rw [List.replicate_succ, List.countP_cons, ih]
    by_cases hp : p a <;> simp [hp]

theorem nrows_single (nm : String) (cells : List Val) :
    Table.nrows ⟨[⟨nm, cells⟩]⟩ = cells.length := by
  rw [Table.nrows]
  rfl

theorem totalCells_single (nm : String) (cells : List Val) :
    Table.totalCells ⟨[⟨nm, cells⟩]⟩ = cells.length := by
  rw [Table.totalCells, nrows_single, Table.ncols]
  simp

theorem totalMissing_le_totalCells {df : Table} (h : df.Rect) :
    df.totalMissing ≤ df.totalCells := by
  unfold Table.totalMissing Table.totalCells Table.ncols
  calc (df.cols.map Col.missing).sum
      ≤ (df.cols.map (fun c => c.cells.length)).sum := by
        apply List.sum_le_sum
        intro c _
        exact List.countP_le_length _
    _ = (df.cols.map (fun _ => df.nrows)).sum := by
        apply congrArg
        apply List.map_congr_left
        intro c hc
        exact h c hc
    _ = df.nrows * df.cols.length := by
        rw [List.map_const']
        rw [List.sum_replicate, smul_eq_mul]
        ring

/-- The C5 counterexample table: one column, 100000 rows, exactly one
missing cell. -/
def tNull : Table := ⟨[⟨"c", Val.null :: List.replicate 99999 (Val.num 1)⟩]⟩

/-- C5 (counterexample): the completeness score is rounded to 4 decimal
places, so on a 100000-cell table with exactly one missing cell the reported
score is exactly 1 even though a missing cell remains: the claimed
`score = 1 iff zero missing cells` (and the claimed exact equality with
`1 − missing/total`) is false. -/
theorem claim_c5_counterexample :
    completeness_score tNull = 1 ∧ tNull.totalMissing = 1 := by
  have hm : tNull.totalMissing = 1 := by
    rw [Table.totalMissing, show tNull.cols = [⟨"c", Val.null :: List.replicate 99999 (Val.num 1)⟩] from rfl]
    rw [List.map_cons, List.map_nil, List.sum_cons, List.sum_nil]
    rw [Col.missing]
    rw [List.countP_cons, countP_replicate]
    norm_num [Val.isNull]
  have hlen : (Val.null :: List.replicate 99999 (Val.num 1)).length = 100000 := by
    rw [List.length_cons, List.length_replicate]
  have hc : tNull.totalCells = 100000 := by
    rw [show tNull = ⟨[⟨"c", Val.null :: List.replicate 99999 (Val.num 1)⟩]⟩ from rfl,
      totalCells_single, hlen]
  refine ⟨?_, hm⟩
  rw [completeness_score, if_pos (by rw [hc]; norm_num), hm, hc]
  rw [round4, qnat_cast, qnat_cast]
  have hx : (1 - ((1:ℕ):ℚ) / ((100000:ℕ):ℚ)) * 10000 = 99999/10 := by
    push_cast
    norm_num
  rw [hx]
  have hfl : ⌊(99999/10 : ℚ)⌋ = 9999 := by
    apply Int.floor_eq_iff.mpr
    constructor <;> norm_num
  rw [roundHalfEven_eq, hfl]
  rw [if_neg (by push_cast; norm_num), if_pos (by push_cast; norm_num)]
  rw [qint_cast]
  norm_num

/-- C5 (amended): on every rectangular table the completeness score equals
`1 − missing/total` rounded half-to-even to 4 decimal places; it lies in
`[0,1]`, equals 0 when the cell count is 0 (never divides by zero), and —
because of the rounding — equals 1 iff the missing fraction is at most
`1/20000`, rather than iff zero missing cells remain. -/
theorem claim_c5_amended_completeness (df : Table) (h : df.Rect) :
    0 ≤ completeness_score df ∧ completeness_score df ≤ 1 ∧
    (df.totalCells = 0 → completeness_score df = 0) ∧
    (0 < df.totalCells →
      (completeness_score df = 1 ↔
        (df.totalMissing : ℚ) / (df.totalCells : ℚ) ≤ 1/20000)) := by
  by_cases hT : 0 < df.totalCells
  · have hMT : df.totalMissing ≤ df.totalCells := totalMissing_le_totalCells h
    have hTpos : (0:ℚ) < (df.totalCells:ℚ) := by exact_mod_cast hT
    have hfrac1 : (df.totalMissing:ℚ)/(df.totalCells:ℚ) ≤ 1 := by
      rw [div_le_one hTpos]
      exact_mod_cast hMT
    have hfrac0 : (0:ℚ) ≤ (df.totalMissing:ℚ)/(df.totalCells:ℚ) := by positivity
    have hscore : completeness_score df =
        round4 (1 - (df.totalMissing:ℚ)/(df.totalCells:ℚ)) := by
      rw [completeness_score, if_pos hT, qnat_cast, qnat_cast]
    have hylo : (0:ℚ) ≤ (1 - (df.totalMissing:ℚ)/(df.totalCells:ℚ)) * 10000 := by nlinarith
    have hyhi : (1 - (df.totalMissing:ℚ)/(df.totalCells:ℚ)) * 10000 ≤ 10000 := by nlinarith
    have hrlo : (0:ℤ) ≤ roundHalfEven ((1 - (df.totalMissing:ℚ)/(df.totalCells:ℚ)) * 10000) := by
      have h0 := roundHalfEven_mono hylo
      rwa [show roundHalfEven ((0:ℚ)) = 0 from by exact_mod_cast roundHalfEven_intCast 0] at h0
    have hrhi : roundHalfEven ((1 - (df.totalMissing:ℚ)/(df.totalCells:ℚ)) * 10000) ≤ 10000 := by
      have h1 := roundHalfEven_mono hyhi
      rwa [show roundHalfEven ((10000:ℚ)) = 10000 from by exact_mod_cast roundHalfEven_intCast 10000] at h1
    refine ⟨?_, ?_, fun h0 => absurd h0 (by omega), fun _ => ?_⟩
    · rw [hscore, round4, qint_cast]
      apply div_nonneg _ (by norm_num)
      exact_mod_cast hrlo
    · rw [hscore, round4, qint_cast]
      rw [div_le_one (by norm_num : (0:ℚ) < 10000)]
      exact_mod_cast hrhi
    · rw [hscore, round4, qint_cast]
      rw [div_eq_one_iff_eq (by norm_num : (10000:ℚ) ≠ 0)]
      have hcast : ((roundHalfEven ((1 - (df.totalMissing:ℚ)/(df.totalCells:ℚ)) * 10000) : ℤ) : ℚ) = 10000 ↔
          roundHalfEven ((1 - (df.totalMissing:ℚ)/(df.totalCells:ℚ)) * 10000) = 10000 := by
        exact_mod_cast Iff.rfl
      rw [hcast, roundHalfEven_eq_top hyhi]
      constructor
      · intro hge
        nlinarith
      · intro hle
        nlinarith
  · have hT0 : df.totalCells = 0 := by omega
    rw [completeness_score, if_neg (by omega)]
    exact ⟨le_refl 0, by norm_num, fun _ => rfl, fun hlt => absurd hlt (by omega)⟩

/-- Witness for C5: the empty table has zero cells and, by the amended
theorem, completeness score 0. -/
theorem claim_c5_amended_witness : completeness_score ⟨[]⟩ = 0 :=
  (claim_c5_amended_completeness ⟨[]⟩ (by intro c hc; simp at hc)).2.2.1 rfl

unseal Rat.mul Rat.add Rat.sub Rat.inv in
/-- C3: `correct_data_types` derives `rate_clean` from the textual rate by
extracting the first numeric token (`"4.1/5" → 4.1`, `"3.8" → 3.8`); a value
with no extractable number (`"New"`) maps to missing and is filled with the
median of the successfully extracted values (the `orElse` in the general
conjunct); `cost_for_two` comes from the cost text by stripping commas and
float-parsing (`"1,200" → 1200.0`, `"800" → 800.0`), and an unparsable or
null cost is left missing — the cost cells are exactly the `cleanCost`
images, with no fallback fill. -/
theorem claim_c3_type_coercion :
    extractRating (.str "4.1/5") = some (41/10) ∧
    extractRating (.str "3.8") = some (19/5) ∧
    extractRating (.str "New") = none ∧
    cleanCost (.str "1,200") = some 1200 ∧
    cleanCost (.str "800") = some 800 ∧
    cleanCost .null = none ∧
    (∀ (df : Table) (i : ℕ) (v : Val), df.hasCol "rate" = true →
      (df.getCells "rate")[i]? = some v →
      ((correct_data_types df).getCells "rate_clean")[i]? =
        some (optVal ((extractRating v).orElse
          (fun _ => seriesMedian ((df.getCells "rate").filterMap extractRating))))) ∧
    (∀ (df : Table) (i : ℕ) (v : Val), df.hasCol costColName = true →
      (df.getCells costColName)[i]? = some v →
      ((correct_data_types df).getCells "cost_for_two")[i]? = some (optVal (cleanCost v))) := by
  refine ⟨by decide, by decide, by decide, by decide, by decide, by decide, ?_, ?_⟩
  · intro df i v h hv
    rw [correct_data_types]
    rw [if_pos h]
    set d1 := df.putCol "rate_clean"
      (((df.getCells "rate").map extractRating).map
        (fun o => optVal (o.orElse (fun _ => seriesMedian (((df.getCells "rate").map extractRating).filterMap id))))) with hd1
    have hrc : (if d1.hasCol costColName then
        d1.putCol "cost_for_two" ((d1.getCells costColName).map (fun w => optVal (cleanCost w)))
        else d1).getCells "rate_clean" = d1.getCells "rate_clean" := by
      split
      · exact Table.getCells_putCol_ne _ _ (by decide)
      · rfl
    rw [hrc]
    rw [hd1, Table.getCells_putCol_self]
    rw [List.getElem?_map, List.getElem?_map, hv]
    simp only [Option.map_some']
    congr 2
    rw [List.filterMap_map]
    congr 1
  · intro df i v h hv
    rw [correct_data_types]
    by_cases hr : df.hasCol "rate" = true
    · rw [if_pos hr]
      set d1 := df.putCol "rate_clean"
        (((df.getCells "rate").map extractRating).map
          (fun o => optVal (o.orElse (fun _ => seriesMedian (((df.getCells "rate").map extractRating).filterMap id))))) with hd1
      have hcost : d1.hasCol costColName = true := by
        rw [hd1, Table.hasCol_putCol, h]
        rfl
      rw [if_pos hcost, Table.getCells_putCol_self]
      rw [show d1.getCells costColName = df.getCells costColName from
        Table.getCells_putCol_ne _ _ (by decide)]
      rw [List.getElem?_map, hv]
      rfl
    · rw [if_neg hr, if_pos h, Table.getCells_putCol_self]
      rw [List.getElem?_map, hv]
      rfl

unseal Rat.mul Rat.add Rat.sub Rat.inv in
/-- Witness for C3: on a two-row rate column `["4.1/5", "New"]` the second
`rate_clean` entry, obtained through the claim theorem, is the median fill. -/
theorem claim_c3_type_coercion_witness :
    ((correct_data_types ⟨[⟨"rate", [Val.str "4.1/5", Val.str "New"]⟩]⟩).getCells "rate_clean")[1]? =
      some (optVal ((extractRating (Val.str "New")).orElse
        (fun _ => seriesMedian (((⟨[⟨"rate", [Val.str "4.1/5", Val.str "New"]⟩]⟩ : Table).getCells "rate").filterMap extractRating)))) :=
  claim_c3_type_coercion.2.2.2.2.2.2.1 _ 1 _ (by decide) (by decide)

/-!  ## Character facts for `strip`/`title`  -/

theorem charToNat_ofNat {n : ℕ} (h : n < 55296) : (Char.ofNat n).toNat = n := by
  have hv : n.isValidChar := Or.inl h
  simp [Char.ofNat, Char.ofNatAux, Char.toNat, dif_pos hv]
  rfl

theorem toNat_toLower (c : Char) :
    c.toLower.toNat = if 65 ≤ c.toNat ∧ c.toNat ≤ 90 then c.toNat + 32 else c.toNat := by
  unfold Char.toLower
  split
  · next h =>
    rw [if_pos ⟨h.1, h.2⟩]
    exact charToNat_ofNat (by omega)
  · next h =>
    rw [if_neg (by exact h)]

theorem toNat_toUpper (c : Char) :
    c.toUpper.toNat = if 97 ≤ c.toNat ∧ c.toNat ≤ 122 then c.toNat - 32 else c.toNat := by
  unfold Char.toUpper
  split
  · next h =>
    rw [if_pos ⟨h.1, h.2⟩]
    exact charToNat_ofNat (by omega)
  · next h =>
    rw [if_neg (by exact h)]

theorem toLower_eq_self (c : Char) (h : ¬ (65 ≤ c.toNat ∧ c.toNat ≤ 90)) :
    c.toLower = c := by
  show (if c.toNat ≥ 65 ∧ c.toNat ≤ 90 then Char.ofNat (c.toNat + 32) else c) = c
  exact if_neg h

theorem toUpper_eq_self (c : Char) (h : ¬ (97 ≤ c.toNat ∧ c.toNat ≤ 122)) :
    c.toUpper = c := by
  show (if c.toNat ≥ 97 ∧ c.toNat ≤ 122 then Char.ofNat (c.toNat - 32) else c) = c
  exact if_neg h

theorem char_isLower_iff (c : Char) : c.isLower = true ↔ 97 ≤ c.toNat ∧ c.toNat ≤ 122 := by
  simp only [Char.isLower, Bool.and_eq_true, decide_eq_true_eq, ge_iff_le]
  exact ⟨fun ⟨h1, h2⟩ => ⟨h1, h2⟩, fun ⟨h1, h2⟩ => ⟨h1, h2⟩⟩

theorem char_isUpper_iff (c : Char) : c.isUpper = true ↔ 65 ≤ c.toNat ∧ c.toNat ≤ 90 := by
  simp only [Char.isUpper, Bool.and_eq_true, decide_eq_true_eq, ge_iff_le]
  exact ⟨fun ⟨h1, h2⟩ => ⟨h1, h2⟩, fun ⟨h1, h2⟩ => ⟨h1, h2⟩⟩

theorem char_isAlpha_iff (c : Char) :
    c.isAlpha = true ↔ (65 ≤ c.toNat ∧ c.toNat ≤ 90) ∨ (97 ≤ c.toNat ∧ c.toNat ≤ 122) := by
  simp only [Char.isAlpha, Bool.or_eq_true, char_isUpper_iff, char_isLower_iff]

theorem char_eq_iff_toNat {c d : Char} : c = d ↔ c.toNat = d.toNat := by
  constructor
  · intro h
    exact congrArg _ h
  · intro h
    apply Char.ext
    exact UInt32.ext h

theorem char_isWs_iff (c : Char) :
    c.isWhitespace = true ↔ c.toNat = 32 ∨ c.toNat = 9 ∨ c.toNat = 13 ∨ c.toNat = 10 := by
  simp only [Char.isWhitespace, Bool.or_eq_true, beq_iff_eq, char_eq_iff_toNat]
  norm_num [Char.toNat]
  tauto

theorem isAlpha_toLower (c : Char) : c.toLower.isAlpha = c.isAlpha := by
  rw [Bool.eq_iff_iff, char_isAlpha_iff, char_isAlpha_iff, toNat_toLower]
  split <;> omega

theorem isAlpha_toUpper (c : Char) : c.toUpper.isAlpha = c.isAlpha := by
  rw [Bool.eq_iff_iff, char_isAlpha_iff, char_isAlpha_iff, toNat_toUpper]
  split <;> omega

theorem isWs_toLower (c : Char) : c.toLower.isWhitespace = c.isWhitespace := by
  rw [Bool.eq_iff_iff, char_isWs_iff, char_isWs_iff, toNat_toLower]
  split <;> omega

theorem isWs_toUpper (c : Char) : c.toUpper.isWhitespace = c.isWhitespace := by
  rw [Bool.eq_iff_iff, char_isWs_iff, char_isWs_iff, toNat_toUpper]
  split <;> omega

theorem toLower_toLower (c : Char) : c.toLower.toLower = c.toLower := by
  by_cases h : 65 ≤ c.toNat ∧ c.toNat ≤ 90
  · apply toLower_eq_self
    rw [toNat_toLower, if_pos h]
    omega
  · simp only [toLower_eq_self c h]

theorem toUpper_toUpper (c : Char) : c.toUpper.toUpper = c.toUpper := by
  by_cases h : 97 ≤ c.toNat ∧ c.toNat ≤ 122
  · apply toUpper_eq_self
    rw [toNat_toUpper, if_pos h]
    omega
  · simp only [toUpper_eq_self c h]

/-!  ## `title`/`strip` idempotence  -/

theorem titleAux_idem (l : List Char) : ∀ b, titleAux b (titleAux b l) = titleAux b l := by
  induction l with
  | nil => intro b; rfl
  | cons c cs ih =>
    intro b
    by_cases ha : c.isAlpha = true
    · by_cases hb : b
      · subst hb
        simp only [titleAux, ha, if_true, if_pos rfl, reduceIte]
        rw [if_pos (by rw [isAlpha_toLower]; exact ha), toLower_toLower, ih]
      · have hb0 : b = false := by simpa using hb
        subst hb0
        simp only [titleAux, ha, if_true, reduceIte, Bool.false_eq_true]
        rw [if_pos (by rw [isAlpha_toUpper]; exact ha), toUpper_toUpper, ih]
    · rw [titleAux, if_neg ha, titleAux, if_neg ha, ih]

theorem titleAux_wsMask (l : List Char) :
    ∀ b, (titleAux b l).map Char.isWhitespace = l.map Char.isWhitespace := by
  induction l with
  | nil => intro b; rfl
  | cons c cs ih =>
    intro b
    by_cases ha : c.isAlpha = true
    · rw [titleAux, if_pos ha, List.map_cons, List.map_cons, ih]
      by_cases hb : b
      · subst hb
        rw [if_pos rfl, isWs_toLower]
      · have hb0 : b = false := by simpa using hb
        subst hb0
        rw [if_neg (by simp), isWs_toUpper]
    · rw [titleAux, if_neg ha, List.map_cons, List.map_cons, ih]

theorem dropWhile_eq_self_of_head {p : Char → Bool} {l : List Char}
    (h : ∀ c, l.head? = some c → p c = false) : l.dropWhile p = l := by
  cases l with
  | nil => rfl
  | cons a as =>
    rw [List.dropWhile_cons, if_neg]
    rw [h a rfl]
    simp

theorem head_dropWhile_false {p : Char → Bool} (l : List Char) :
    ∀ c, (l.dropWhile p).head? = some c → p c = false := by
  induction l with
  | nil => intro c hc; simp at hc
  | cons a as ih =>
    intro c hc
    rw [List.dropWhile_cons] at hc
    by_cases hp : p a = true
    · rw [if_pos hp] at hc
      exact ih c hc
    · rw [if_neg hp] at hc
      simp at hc
      rw [← hc]
      simpa using hp

theorem stripL_head {l : List Char} :
    ∀ c, (stripL l).head? = some c → c.isWhitespace = false := by
  intro c hc
  have hpre : (stripL l) <+: (l.dropWhile Char.isWhitespace) := by
    rw [stripL]
    nth_rewrite 2 [← List.reverse_reverse (l.dropWhile Char.isWhitespace)]
    exact List.reverse_prefix.mpr (List.dropWhile_suffix _)
  cases hs : stripL l with
  | nil =>
    rw [hs] at hc
    simp at hc
  | cons a rest =>
    rw [hs] at hc
    have hac : a = c := by simpa using hc
    rw [hs] at hpre
    rcases hpre with ⟨t, ht⟩
    refine head_dropWhile_false l c ?_
    rw [← ht]
    simp [hac]

theorem stripL_getLast {l : List Char} :
    ∀ c, (stripL l).getLast? = some c → c.isWhitespace = false := by
  intro c hc
  rw [stripL, List.getLast?_reverse] at hc
  exact head_dropWhile_false _ c hc

theorem stripL_eq_self {l : List Char}
    (hh : ∀ c, l.head? = some c → c.isWhitespace = false)
    (hl : ∀ c, l.getLast? = some c → c.isWhitespace = false) :
    stripL l = l := by
  rw [stripL, dropWhile_eq_self_of_head hh]
  rw [dropWhile_eq_self_of_head (fun c hc => hl c (by rwa [List.head?_reverse] at hc))]
  exact List.reverse_reverse l

theorem titleAux_head_ws {b : Bool} {u : List Char} :
    ∀ c, (titleAux b u).head? = some c →
      ∃ c0, u.head? = some c0 ∧ c.isWhitespace = c0.isWhitespace := by
  intro c hc
  have hmask := titleAux_wsMask u b
  have h1 : ((titleAux b u).map Char.isWhitespace).head? = ((u.map Char.isWhitespace)).head? := by
    rw [hmask]
  rw [List.head?_map, List.head?_map, hc] at h1
  cases hu : u.head? with
  | none =>
    rw [hu] at h1
    simp at h1
  | some c0 =>
    rw [hu] at h1
    simp at h1
    exact ⟨c0, rfl, h1⟩

theorem titleAux_getLast_ws {b : Bool} {u : List Char} :
    ∀ c, (titleAux b u).getLast? = some c →
      ∃ c0, u.getLast? = some c0 ∧ c.isWhitespace = c0.isWhitespace := by
  intro c hc
  have hmask := titleAux_wsMask u b
  have h1 : ((titleAux b u).map Char.isWhitespace).getLast? = ((u.map Char.isWhitespace)).getLast? := by
    rw [hmask]
  rw [List.getLast?_map, List.getLast?_map, hc] at h1
  cases hu : u.getLast? with
  | none =>
    rw [hu] at h1
    simp at h1
  | some c0 =>
    rw [hu] at h1
    simp at h1
    exact ⟨c0, rfl, h1⟩

theorem titleStrip_idem (l : List Char) :
    titleL (stripL (titleL (stripL l))) = titleL (stripL l) := by
  have hsw : stripL (titleL (stripL l)) = titleL (stripL l) := by
    apply stripL_eq_self
    · intro c hc
      rcases titleAux_head_ws c hc with ⟨c0, hc0, hws⟩
      rw [hws]
      exact stripL_head c0 hc0
    · intro c hc
      rcases titleAux_getLast_ws c hc with ⟨c0, hc0, hws⟩
      rw [hws]
      exact stripL_getLast c0 hc0
  rw [hsw]
  exact titleAux_idem _ false

theorem cleanText_idem (v : Val) : cleanText (cleanText v) = cleanText v := by
  show Val.str (pyTitle (pyStrip (pyStr (cleanText v)))) = cleanText v
  rw [show pyStr (cleanText v) = pyTitle (pyStrip (pyStr v)) from rfl]
  show Val.str ⟨titleL (stripL (titleL (stripL (pyStr v).data)))⟩ = cleanText v
  rw [titleStrip_idem]
  rfl

/-!  ## Lemmas on the text-normalization fold  -/

theorem stdStep_hasCol (t : Table) (m n : String) :
    (stdStep t m).hasCol n = t.hasCol n := by
  rw [stdStep]
  split
  · rw [Table.hasCol_setCol]
  · rfl

theorem stdStep_getCells_ne (t : Table) {m n : String} (h : m ≠ n) :
    (stdStep t m).getCells n = t.getCells n := by
  rw [stdStep]
  split
  · exact Table.getCells_setCol_ne _ h
  · rfl

theorem stdStep_getCells_self (t : Table) {n : String} (h : t.hasCol n = true) :
    (stdStep t n).getCells n = (t.getCells n).map cleanText := by
  rw [stdStep, if_pos h]
  exact Table.getCells_setCol_self _ h

theorem foldl_stdStep_getCells_not_mem {n : String} :
    ∀ (names : List String) (t : Table), n ∉ names →
      (names.foldl stdStep t).getCells n = t.getCells n := by
  intro names
  induction names with
  | nil => intro t _; rfl
  | cons m ms ih =>
    intro t hn
    rw [List.foldl_cons, ih _ (fun hmem => hn (List.mem_cons_of_mem _ hmem))]
    exact stdStep_getCells_ne t (fun he => hn (he ▸ List.mem_cons_self m ms))

theorem foldl_stdStep_getCells {n : String} :
    ∀ (names : List String) (t : Table), names.Nodup → n ∈ names → t.hasCol n = true →
      (names.foldl stdStep t).getCells n = (t.getCells n).map cleanText := by
  intro names
  induction names with
  | nil => intro t _ hn; cases hn
  | cons m ms ih =>
    intro t hnd hn h
    rw [List.foldl_cons]
    rcases List.mem_cons.mp hn with rfl | hmem
    · rw [foldl_stdStep_getCells_not_mem ms _ (List.Nodup.not_mem hnd)]
      exact stdStep_getCells_self t h
    · have hmn : m ≠ n := fun he => (List.Nodup.not_mem hnd) (he ▸ hmem)
      rw [ih _ (List.Nodup.of_cons hnd) hmem (by rw [stdStep_hasCol]; exact h)]
      rw [stdStep_getCells_ne t hmn]

/-- C9: after `standardize_text_columns`, every configured text column that
is present holds only (non-null) strings — `astype(str)` then strip/title —
and a null cell becomes the literal string `"Nan"` (`str(nan) = "nan"`,
title-cased), so missingness in those columns is silently eliminated. -/
theorem claim_c9_text_columns_stringified (df : Table) (n : String)
    (hn : n ∈ TEXT_COLUMNS) (h : df.hasCol n = true) :
    (∀ v ∈ (standardize_text_columns df).getCells n, v.isStr = true) ∧
    ((standardize_text_columns df).getCells n).countP (·.isNull) = 0 ∧
    (∀ i : ℕ, (df.getCells n)[i]? = some Val.null →
      ((standardize_text_columns df).getCells n)[i]? = some (Val.str "Nan")) := by
  have hstd : (standardize_text_columns df).getCells n = (df.getCells n).map cleanText :=
    foldl_stdStep_getCells TEXT_COLUMNS df (by decide) hn h
  refine ⟨?_, ?_, ?_⟩
  · intro v hv
    rw [hstd] at hv
    rcases List.mem_map.mp hv with ⟨w, _, rfl⟩
    rfl
  · rw [hstd]
    apply List.countP_eq_zero.mpr
    intro v hv
    rcases List.mem_map.mp hv with ⟨w, _, rfl⟩
    simp [cleanText, Val.isNull]
  · intro i hi
    rw [hstd, List.getElem?_map, hi]
    rfl

/-- Witness for C9: a one-column table with a null name cell comes out as
the string `"Nan"`. -/
theorem claim_c9_witness :
    ((standardize_text_columns ⟨[⟨"name", [Val.null]⟩]⟩).getCells "name")[0]? =
      some (Val.str "Nan") :=
  (claim_c9_text_columns_stringified ⟨[⟨"name", [Val.null]⟩]⟩ "name"
    (by decide) (by decide)).2.2 0 (by decide)

/-- A column already normalized by the text fold: every column named `n`
carries the canonical cells, and those cells are a fixpoint of `cleanText`. -/
def StdFixed (n : String) (t : Table) : Prop :=
  t.hasCol n = true →
    (∀ c ∈ t.cols, c.name = n → c.cells = t.getCells n) ∧
    (t.getCells n).map cleanText = t.getCells n

theorem setCol_cells_uniform (t : Table) (n : String) (cs : List Val) :
    ∀ c ∈ (t.setCol n cs).cols, c.name = n → c.cells = cs := by
  intro c hc hcn
  rw [Table.setCol] at hc
  rcases List.mem_map.mp hc with ⟨c0, _, rfl⟩
  by_cases h0 : c0.name = n
  · simp [h0]
  · simp only [show (c0.name == n) = false by simpa using h0] at hcn ⊢
    simp at hcn
    exact absurd hcn h0

theorem stdFixed_establish (t : Table) (n : String) : StdFixed n (stdStep t n) := by
  intro hcol
  by_cases h : t.hasCol n = true
  · rw [stdStep, if_pos h]
    have hcells := Table.getCells_setCol_self (t := t) ((t.getCells n).map cleanText) h
    refine ⟨?_, ?_⟩
    · intro c hc hcn
      rw [hcells]
      exact setCol_cells_uniform t n _ c hc hcn
    · rw [hcells, List.map_map]
      apply List.map_congr_left
      intro a _
      exact cleanText_idem a
  · rw [stdStep_hasCol] at hcol
    exact absurd hcol (by simp [h])

theorem stdFixed_preserve {t : Table} {n : String} (m : String)
    (hQ : StdFixed n t) : StdFixed n (stdStep t m) := by
  by_cases hmn : m = n
  · subst hmn
    exact stdFixed_establish t m
  · intro hcol
    rw [stdStep_hasCol] at hcol
    rcases hQ hcol with ⟨huni, hfix⟩
    rw [stdStep]
    split
    · refine ⟨?_, ?_⟩
      · intro c hc hcn
        rw [Table.setCol] at hc
        rcases List.mem_map.mp hc with ⟨c0, hc0, rfl⟩
        by_cases h0 : c0.name = m
        · simp only [show (c0.name == m) = true by simpa using h0] at hcn
          simp at hcn
          exact absurd (h0.symm.trans hcn) hmn
        · simp only [show (c0.name == m) = false by simpa using h0] at hcn ⊢
          rw [Table.getCells_setCol_ne _ hmn]
          exact huni c0 hc0 hcn
      · rw [Table.getCells_setCol_ne _ hmn]
        exact hfix
    · exact ⟨huni, hfix⟩

theorem stdFixed_fold_preserve {n : String} :
    ∀ (names : List String) (t : Table), StdFixed n t →
      StdFixed n (names.foldl stdStep t) := by
  intro names
  induction names with
  | nil => intro t h; exact h
  | cons m ms ih =>
    intro t h
    rw [List.foldl_cons]
    exact ih _ (stdFixed_preserve m h)

theorem stdFixed_fold {n : String} :
    ∀ (names : List String) (t : Table), n ∈ names →
      StdFixed n (names.foldl stdStep t) := by
  intro names
  induction names with
  | nil => intro t hn; cases hn
  | cons m ms ih =>
    intro t hn
    rw [List.foldl_cons]
    rcases List.mem_cons.mp hn with rfl | hmem
    · exact stdFixed_fold_preserve ms _ (stdFixed_establish t n)
    · exact ih (stdStep t m) hmem

theorem stdFixed_step_fix {t : Table} {n : String} (hQ : StdFixed n t) :
    stdStep t n = t := by
  by_cases h : t.hasCol n = true
  · rcases hQ h with ⟨huni, hfix⟩
    rw [stdStep, if_pos h, hfix]
    exact Table.setCol_eq_self huni
  · rw [stdStep, if_neg h]

theorem foldl_stdStep_fix :
    ∀ (names : List String) (t : Table), (∀ n ∈ names, StdFixed n t) →
      names.foldl stdStep t = t := by
  intro names
  induction names with
  | nil => intro t _; rfl
  | cons m ms ih =>
    intro t h
    rw [List.foldl_cons, stdFixed_step_fix (h m (List.mem_cons_self m ms))]
    exact ih t (fun n hn => h n (List.mem_cons_of_mem m hn))

theorem std_idempotent (df : Table) :
    standardize_text_columns (standardize_text_columns df) = standardize_text_columns df := by
  show TEXT_COLUMNS.foldl stdStep (standardize_text_columns df) = standardize_text_columns df
  exact foldl_stdStep_fix TEXT_COLUMNS _ (fun n hn => stdFixed_fold TEXT_COLUMNS df hn)

/-!  ## Lemmas for the imputation fold  -/

theorem fillna_null (cs : List Val) : fillna cs Val.null = cs := by
  rw [fillna]
  have : ∀ c ∈ cs, (if c.isNull = true then Val.null else c) = id c := by
    intro c _
    by_cases h : c.isNull = true
    · cases c with
      | null => simp
      | str s => simp [Val.isNull] at h
      | num q => simp [Val.isNull] at h
    · simp [h]
  rw [List.map_congr_left this, List.map_id]

theorem fillna_no_null {v : Val} (hv : v.isNull = false) (cs : List Val) :
    ∀ c ∈ fillna cs v, c.isNull = false := by
  intro c hc
  rw [fillna] at hc
  rcases List.mem_map.mp hc with ⟨c0, _, rfl⟩
  by_cases h0 : c0.isNull = true
  · rw [if_pos h0]
    exact hv
  · rw [if_neg h0]
    simpa using h0

theorem fillna_eq_self_of_no_null {cs : List Val}
    (h : ∀ c ∈ cs, c.isNull = false) (v : Val) : fillna cs v = cs := by
  rw [fillna]
  have : ∀ c ∈ cs, (if c.isNull = true then v else c) = id c := by
    intro c hc
    rw [if_neg (by rw [h c hc]; simp)]
    rfl
  rw [List.map_congr_left this, List.map_id]

theorem fillna_length (cs : List Val) (v : Val) : (fillna cs v).length = cs.length := by
  rw [fillna, List.length_map]

theorem fillna_missing_le (cs : List Val) (v : Val) :
    (fillna cs v).countP (·.isNull) ≤ cs.countP (·.isNull) := by
  induction cs with
  | nil => simp [fillna]
  | cons c cs ih =>
    rw [fillna, List.map_cons, List.countP_cons, List.countP_cons]
    rw [show (List.map (fun c => if c.isNull = true then v else c) cs) = fillna cs v from rfl]
    by_cases h : c.isNull = true
    · rw [if_pos h, h]
      simp only [reduceIte]
      have hv : (if v.isNull = true then 1 else 0) ≤ 1 := by
        split <;> omega
      omega
    · rw [if_neg h]
      omega

theorem fillStep_hasCol (t : Table) (p : String × Val) (n : String) :
    (fillStep t p).hasCol n = t.hasCol n := by
  rw [fillStep]
  split
  · rw [Table.hasCol_setCol]
  · rfl

theorem fillStep_colNames (t : Table) (p : String × Val) :
    (fillStep t p).colNames = t.colNames := by
  rw [fillStep]
  split
  · rw [Table.colNames_setCol]
  · rfl

theorem fillStep_getCells_ne (t : Table) {p : String × Val} {n : String} (h : p.1 ≠ n) :
    (fillStep t p).getCells n = t.getCells n := by
  rw [fillStep]
  split
  · exact Table.getCells_setCol_ne _ h
  · rfl

theorem fillStep_getCells_self (t : Table) (p : String × Val) (h : t.hasCol p.1 = true) :
    (fillStep t p).getCells p.1 = fillna (t.getCells p.1) p.2 := by
  rw [fillStep, if_pos h]
  exact Table.getCells_setCol_self _ h

theorem find_nodup_eq {l : List Col} {c : Col} {n : String}
    (hnd : (l.map Col.name).Nodup) (hc : c ∈ l) (hn : c.name = n) :
    l.find? (fun c => c.name == n) = some c := by
  induction l with
  | nil => cases hc
  | cons c0 rest ih =>
    rw [List.map_cons, List.nodup_cons] at hnd
    rcases List.mem_cons.mp hc with rfl | hmem
    · rw [List.find?_cons_of_pos _ (by simpa using hn)]
    · have h0 : (c0.name == n) = false := by
        apply beq_eq_false_iff_ne.mpr
        intro he
        exact hnd.1 (he ▸ hn ▸ List.mem_map_of_mem Col.name hmem)
      rw [List.find?_cons_of_neg _ (by simp [h0])]
      exact ih hnd.2 hmem

theorem nodup_getCells_eq {t : Table} {c : Col} {n : String}
    (hnd : t.colNames.Nodup) (hc : c ∈ t.cols) (hn : c.name = n) :
    t.getCells n = c.cells := by
  have hnd2 : (t.cols.map Col.name).Nodup := hnd
  rw [Table.getCells, Table.getCol, find_nodup_eq hnd2 hc hn]
  rfl

theorem nrows_setCol_preserve {t : Table} {n : String} {cs : List Val}
    (h : cs.length = (t.getCells n).length) : (t.setCol n cs).nrows = t.nrows := by
  obtain ⟨cols⟩ := t
  cases cols with
  | nil => rfl
  | cons c0 rest =>
    by_cases h0 : (c0.name == n) = true
    · have he : c0.name = n := beq_iff_eq.mp h0
      have hget : Table.getCells ⟨c0 :: rest⟩ n = c0.cells := by
        rw [Table.getCells, Table.getCol]
        simp [List.find?_cons, h0]
      rw [hget] at h
      simp [Table.setCol, Table.nrows, he, h]
    · have he : ¬ c0.name = n := fun hh => h0 (beq_iff_eq.mpr hh)
      simp [Table.setCol, Table.nrows, he]

theorem fillStep_nrows {t : Table} (p : String × Val) : (fillStep t p).nrows = t.nrows := by
  rw [fillStep]
  split
  · exact nrows_setCol_preserve (fillna_length _ _)
  · rfl

theorem fillStep_missing_bound {t : Table} (hnd : t.colNames.Nodup) (p : String × Val) :
    ∀ c2 ∈ (fillStep t p).cols, ∃ c ∈ t.cols, c2.name = c.name ∧ c2.missing ≤ c.missing := by
  intro c2 hc2
  rw [fillStep] at hc2
  split at hc2
  · rw [Table.setCol] at hc2
    rcases List.mem_map.mp hc2 with ⟨c0, hc0, rfl⟩
    by_cases h0 : (c0.name == p.1) = true
    · refine ⟨c0, hc0, ?_, ?_⟩
      · rw [if_pos h0]
      · rw [if_pos h0]
        show (fillna (t.getCells p.1) p.2).countP (·.isNull) ≤ c0.cells.countP (·.isNull)
        rw [nodup_getCells_eq hnd hc0 (beq_iff_eq.mp h0)]
        exact fillna_missing_le _ _
    · rw [if_neg h0]
      exact ⟨c0, hc0, rfl, le_refl _⟩
  · exact ⟨c2, hc2, rfl, le_refl _⟩

/-!  ## Lemmas for idempotence of `handle_missing_values`  -/

theorem setCol_getCells_eq_self {t : Table} (hnd : t.colNames.Nodup) (n : String) :
    t.setCol n (t.getCells n) = t :=
  Table.setCol_eq_self (fun c hc hn => (nodup_getCells_eq hnd hc hn).symm)

theorem fillStep_eq_self_of_no_null {t : Table} (hnd : t.colNames.Nodup) {n : String}
    (h : ∀ cell ∈ t.getCells n, cell.isNull = false) (v : Val) : fillStep t (n, v) = t := by
  rw [fillStep]
  split
  · rw [fillna_eq_self_of_no_null h]
    exact setCol_getCells_eq_self hnd n
  · rfl

theorem hasCol_of_getCol {t : Table} {n : String} {c : Col} (h : t.getCol n = some c) :
    t.hasCol n = true := by
  rw [Table.getCol] at h
  rw [Table.hasCol]
  have hp := List.find?_some h
  exact List.any_eq_true.mpr ⟨c, List.mem_of_find?_eq_some h, hp⟩

theorem getCol_eq_some_elim {t : Table} {n : String} {c : Col}
    (h : t.getCol n = some c) : c ∈ t.cols ∧ c.name = n := by
  rw [Table.getCol] at h
  have hp := List.find?_some h
  exact ⟨List.mem_of_find?_eq_some h, beq_iff_eq.mp hp⟩

theorem getCells_of_getCol {t : Table} {n : String} {c : Col} (h : t.getCol n = some c) :
    t.getCells n = c.cells := by
  rw [Table.getCells, h]
  rfl

theorem getCol_isSome_of_hasCol {t : Table} {n : String} (h : t.hasCol n = true) :
    ∃ c, t.getCol n = some c := by
  cases hg : t.getCol n with
  | some c => exact ⟨c, rfl⟩
  | none =>
    rw [Table.getCol, List.find?_eq_none] at hg
    rw [Table.hasCol] at h
    rcases List.any_eq_true.mp h with ⟨c, hc, hp⟩
    exact absurd hp (hg c hc)

theorem mem_dropCols {t : Table} {names : List String} {c : Col}
    (hc : c ∈ (t.dropCols names).cols) : c ∈ t.cols ∧ ¬ names.contains c.name = true := by
  rw [Table.dropCols] at hc
  have h := List.mem_filter.mp hc
  exact ⟨h.1, by simpa using h.2⟩

theorem dropCols_filter_bound {df : Table} {p : Col → Bool} {c : Col}
    (hc : c ∈ (df.dropCols ((df.cols.filter p).map Col.name)).cols) : p c = false := by
  rcases mem_dropCols hc with ⟨hmem, hnc⟩
  by_contra hp
  have hp2 : p c = true := by simpa using hp
  have hin : c.name ∈ (df.cols.filter p).map Col.name :=
    List.mem_map_of_mem Col.name (List.mem_filter.mpr ⟨hmem, hp2⟩)
  exact hnc (List.elem_eq_true_of_mem hin)

theorem nrows_dropCols {df : Table} (hr : df.Rect) (names : List String)
    (hne : (df.dropCols names).cols ≠ []) : (df.dropCols names).nrows = df.nrows := by
  cases h : (df.dropCols names).cols with
  | nil => exact absurd h hne
  | cons c0 rest =>
    have hmem : c0 ∈ df.cols := (mem_dropCols (h ▸ List.mem_cons_self c0 rest)).1
    have h0 : (df.dropCols names).nrows = c0.cells.length := by
      rw [Table.nrows, h]
      rfl
    rw [h0]
    exact hr c0 hmem

theorem colNames_dropCols_sublist (t : Table) (names : List String) :
    (t.dropCols names).colNames.Sublist t.colNames := by
  rw [Table.dropCols, Table.colNames, Table.colNames]
  exact (List.filter_sublist _).map Col.name

theorem dropCols_nil (t : Table) : t.dropCols [] = t := by
  rw [Table.dropCols]
  have h : t.cols.filter (fun c => ¬ (([] : List String).contains c.name)) = t.cols :=
    List.filter_eq_self.mpr (fun c _ => by simp)
  rw [h]

theorem qnat_le_qnat {a b : ℕ} (h : a ≤ b) : qnat a ≤ qnat b := by
  rw [qnat_cast, qnat_cast]
  exact_mod_cast h

theorem foldl_fillStep_colNames (fills : List (String × Val)) (t : Table) :
    (fills.foldl fillStep t).colNames = t.colNames := by
  induction fills generalizing t with
  | nil => rfl
  | cons p rest ih => rw [List.foldl_cons, ih, fillStep_colNames]

theorem foldl_fillStep_nrows (fills : List (String × Val)) (t : Table) :
    (fills.foldl fillStep t).nrows = t.nrows := by
  induction fills generalizing t with
  | nil => rfl
  | cons p rest ih => rw [List.foldl_cons, ih, fillStep_nrows]

theorem foldl_fillStep_hasCol (fills : List (String × Val)) (t : Table) (n : String) :
    (fills.foldl fillStep t).hasCol n = t.hasCol n := by
  induction fills generalizing t with
  | nil => rfl
  | cons p rest ih => rw [List.foldl_cons, ih, fillStep_hasCol]

theorem foldl_fillStep_missing_bound (fills : List (String × Val)) :
    ∀ {t : Table}, t.colNames.Nodup →
    ∀ c2 ∈ (fills.foldl fillStep t).cols, ∃ c ∈ t.cols, c2.missing ≤ c.missing := by
  induction fills with
  | nil =>
    intro t _ c2 hc2
    exact ⟨c2, hc2, le_refl _⟩
  | cons p rest ih =>
    intro t hnd c2 hc2
    rw [List.foldl_cons] at hc2
    have hnd1 : (fillStep t p).colNames.Nodup := by
      rw [fillStep_colNames]
      exact hnd
    rcases ih hnd1 c2 hc2 with ⟨c1, hc1, hle1⟩
    rcases fillStep_missing_bound hnd p c1 hc1 with ⟨c0, hc0, _, hle0⟩
    exact ⟨c0, hc0, le_trans hle1 hle0⟩

theorem foldl_fillStep_fix {t : Table} (fills : List (String × Val))
    (h : ∀ p ∈ fills, fillStep t p = t) : fills.foldl fillStep t = t := by
  induction fills with
  | nil => rfl
  | cons p rest ih =>
    rw [List.foldl_cons, h p (List.mem_cons_self p rest)]
    exact ih (fun p2 hp2 => h p2 (List.mem_cons_of_mem p hp2))

theorem mapM_cellFloat_forall2 : ∀ {cells : List Val} {vs : List (Option ℚ)},
    cells.mapM cellFloat = .ok vs →
    List.Forall₂ (fun c v => cellFloat c = .ok v) cells vs := by
  intro cells
  induction cells with
  | nil =>
    intro vs h
    rw [List.mapM_nil, exceptPure] at h
    cases h
    exact List.Forall₂.nil
  | cons c cs ih =>
    intro vs h
    rw [List.mapM_cons] at h
    cases hc : cellFloat c with
    | error e =>
      rw [hc, exceptBind_error] at h
      cases h
    | ok v =>
      rw [hc, exceptBind_ok] at h
      cases hcs : cs.mapM cellFloat with
      | error e =>
        rw [hcs, exceptBind_error] at h
        cases h
      | ok ws =>
        rw [hcs, exceptBind_ok, exceptPure] at h
        cases h
        exact List.Forall₂.cons hc (ih hcs)

theorem mapM_cellFloat_ok_of_forall : ∀ {cells : List Val},
    (∀ c ∈ cells, ∃ v, cellFloat c = .ok v) →
    ∃ vs, cells.mapM cellFloat = .ok vs := by
  intro cells
  induction cells with
  | nil =>
    intro _
    exact ⟨[], rfl⟩
  | cons c cs ih =>
    intro hall
    rcases hall c (List.mem_cons_self c cs) with ⟨v, hv⟩
    rcases ih (fun c2 hc2 => hall c2 (List.mem_cons_of_mem c hc2)) with ⟨ws, hws⟩
    refine ⟨v :: ws, ?_⟩
    rw [List.mapM_cons, hv, exceptBind_ok, hws, exceptBind_ok, exceptPure]

theorem forall_of_mapM_cellFloat_ok {cells : List Val} {vs : List (Option ℚ)}
    (h : cells.mapM cellFloat = .ok vs) : ∀ c ∈ cells, ∃ v, cellFloat c = .ok v := by
  intro c hc
  rcases List.forall₂_iff_get.mp (mapM_cellFloat_forall2 h) with ⟨hlen, hget⟩
  rcases List.mem_iff_get.mp hc with ⟨⟨i, hi⟩, rfl⟩
  exact ⟨vs.get ⟨i, hlen ▸ hi⟩, hget i hi (hlen ▸ hi)⟩

theorem colMedian_ok_elim {cells : List Val} {m : Option ℚ}
    (h : colMedian cells = .ok m) :
    ∃ vs, cells.mapM cellFloat = .ok vs ∧ seriesMedian (vs.filterMap id) = m := by
  rw [colMedian] at h
  cases hm : cells.mapM cellFloat with
  | error e =>
    rw [hm, exceptBind_error] at h
    cases h
  | ok vs =>
    rw [hm, exceptBind_ok, exceptPure] at h
    cases h
    exact ⟨vs, rfl, rfl⟩

theorem colMedian_ok_intro {cells : List Val} {vs : List (Option ℚ)}
    (h : cells.mapM cellFloat = .ok vs) :
    colMedian cells = .ok (seriesMedian (vs.filterMap id)) := by
  rw [colMedian, h, exceptBind_ok, exceptPure]

theorem cellFloat_ok_none {c : Val} (h : cellFloat c = .ok none) : c = .null := by
  cases c with
  | null => rfl
  | num q => simp [cellFloat] at h
  | str s =>
    rw [cellFloat] at h
    cases hp : pyFloatOfString s with
    | none =>
      rw [hp] at h
      cases h
    | some q =>
      rw [hp] at h
      simp at h

theorem seriesMedian_eq_none {xs : List ℚ} (h : seriesMedian xs = none) : xs = [] := by
  cases xs with
  | nil => rfl
  | cons x l =>
    rw [seriesMedian, quantile] at h
    cases h

theorem forall2_cellFloat_none : ∀ {cells : List Val} {vs : List (Option ℚ)},
    List.Forall₂ (fun c v => cellFloat c = .ok v) cells vs →
    (∀ v ∈ vs, v = none) → ∀ c ∈ cells, c = .null := by
  intro cells vs h
  induction h with
  | nil =>
    intro _ c hc
    cases hc
  | cons hcv htail ih =>
    intro hnone c hc
    rcases List.mem_cons.mp hc with rfl | hmem
    · have hn := hnone _ (List.mem_cons_self _ _)
      exact cellFloat_ok_none (hn ▸ hcv)
    · exact ih (fun v hv => hnone v (List.mem_cons_of_mem _ hv)) c hmem

/-- The column-dropping stage of `handle_missing_values`, on its own. -/
def hmvDrop (df : Table) : Table :=
  df.dropCols ((df.cols.filter
    (fun c => qnat c.missing > qnat df.nrows * MISSING_THRESHOLD)).map Col.name)

theorem hmv_eq (df : Table) :
    handle_missing_values df =
      match (hmvDrop df).getCol costColName with
      | none => .error "KeyError: approx_cost(for two people)"
      | some c =>
          colMedian c.cells >>= fun m =>
            pure ((imputationFills (optVal m)).foldl fillStep (hmvDrop df)) := rfl

theorem hmv_ok_elim {df u : Table} (h : handle_missing_values df = .ok u) :
    ∃ c m, (hmvDrop df).getCol costColName = some c ∧ colMedian c.cells = .ok m ∧
      u = (imputationFills (optVal m)).foldl fillStep (hmvDrop df) := by
  rw [hmv_eq] at h
  cases hget : (hmvDrop df).getCol costColName with
  | none =>
    rw [hget] at h
    cases h
  | some c =>
    rw [hget] at h
    have h2 : (colMedian c.cells >>= fun m =>
        pure ((imputationFills (optVal m)).foldl fillStep (hmvDrop df))) = Except.ok u := h
    cases hmed : colMedian c.cells with
    | error e =>
      rw [hmed, exceptBind_error] at h2
      cases h2
    | ok m =>
      rw [hmed, exceptBind_ok, exceptPure] at h2
      exact ⟨c, m, rfl, hmed, (Except.ok.inj h2).symm⟩

theorem fillStep_pair_getCells_self (t : Table) (n : String) (v : Val)
    (h : t.hasCol n = true) :
    (fillStep t (n, v)).getCells n = fillna (t.getCells n) v :=
  fillStep_getCells_self t (n, v) h

theorem fillStep_pair_getCells_ne (t : Table) {n2 n : String} (v : Val) (h : n2 ≠ n) :
    (fillStep t (n2, v)).getCells n = t.getCells n :=
  fillStep_getCells_ne t h

theorem fillStep_no_null_pres {t : Table} (p : String × Val) {n : String}
    (h : ∀ cell ∈ t.getCells n, cell.isNull = false) :
    ∀ cell ∈ (fillStep t p).getCells n, cell.isNull = false := by
  by_cases he : p.1 = n
  · by_cases hc : t.hasCol p.1 = true
    · subst he
      have hself : (fillStep t p).getCells p.1 = fillna (t.getCells p.1) p.2 :=
        fillStep_getCells_self t p hc
      rw [hself, fillna_eq_self_of_no_null h]
      exact h
    · have hstep : fillStep t p = t := by
        rw [fillStep]
        exact if_neg hc
      rw [hstep]
      exact h
  · rw [fillStep_getCells_ne _ he]
    exact h

theorem fillStep_no_null_est {t : Table} (n : String) (v : Val) (hv : v.isNull = false) :
    ∀ cell ∈ (fillStep t (n, v)).getCells n, cell.isNull = false := by
  by_cases hc : t.hasCol n = true
  · rw [fillStep_pair_getCells_self _ _ _ hc]
    exact fillna_no_null hv _
  · have hstep : fillStep t (n, v) = t := by
      rw [fillStep]
      exact if_neg hc
    rw [hstep, Table.getCells_of_not_hasCol (by simpa using hc)]
    intro cell hcell
    cases hcell

theorem hmv_idempotent {df u : Table} (hnd : df.colNames.Nodup) (hr : df.Rect)
    (h : handle_missing_values df = .ok u) :
    handle_missing_values u = .ok u ∧
      ∀ n ∈ (["rate", costColName, "cuisines", "dish_liked"] : List String),
        ∀ cell ∈ u.getCells n, cell.isNull = false := by
  rcases hmv_ok_elim h with ⟨c, m, hget, hmed, hu⟩
  have hcmem := getCol_eq_some_elim hget
  have hndc : (hmvDrop df).colNames.Nodup := by
    rw [hmvDrop]
    exact List.Nodup.sublist (colNames_dropCols_sublist df _) hnd
  have hne : (hmvDrop df).cols ≠ [] := List.ne_nil_of_mem hcmem.1
  have hnr : (hmvDrop df).nrows = df.nrows := nrows_dropCols hr _ hne
  have hu4 : u = fillStep (fillStep (fillStep (fillStep (hmvDrop df)
      ("rate", Val.str "0 out of 5")) (costColName, optVal m))
      ("cuisines", Val.str "Unknown")) ("dish_liked", Val.str "Not Specified") := by
    rw [hu]
    rfl
  have hndu : u.colNames.Nodup := by
    rw [hu, foldl_fillStep_colNames]
    exact hndc
  have hnru : u.nrows = df.nrows := by
    rw [hu, foldl_fillStep_nrows, hnr]
  have hhc : u.hasCol costColName = true := by
    rw [hu, foldl_fillStep_hasCol]
    exact hasCol_of_getCol hget
  have hbound : ∀ c2 ∈ u.cols, qnat c2.missing ≤ qnat df.nrows * MISSING_THRESHOLD := by
    intro c2 hc2
    rw [hu] at hc2
    rcases foldl_fillStep_missing_bound _ hndc c2 hc2 with ⟨c0, hc0, hle⟩
    rw [hmvDrop] at hc0
    have hpf := dropCols_filter_bound hc0
    have hp2 : ¬ (qnat c0.missing > qnat df.nrows * MISSING_THRESHOLD) := by
      simpa using hpf
    exact le_trans (qnat_le_qnat hle) (not_lt.mp hp2)
  have hfil : u.cols.filter
      (fun c => qnat c.missing > qnat u.nrows * MISSING_THRESHOLD) = [] := by
    rw [List.filter_eq_nil_iff]
    intro c2 hc2
    simp only [decide_eq_true_eq]
    rw [hnru]
    exact not_lt.mpr (hbound c2 hc2)
  have hdrop2 : hmvDrop u = u := by
    rw [hmvDrop, hfil, List.map_nil]
    exact dropCols_nil u
  have hhas1 : (fillStep (hmvDrop df)
      ("rate", Val.str "0 out of 5")).hasCol costColName = true := by
    rw [fillStep_hasCol]
    exact hasCol_of_getCol hget
  have hcost_cells : u.getCells costColName = fillna c.cells (optVal m) := by
    rw [hu4,
      fillStep_pair_getCells_ne _ _ (show ("dish_liked" : String) ≠ costColName from by decide),
      fillStep_pair_getCells_ne _ _ (show ("cuisines" : String) ≠ costColName from by decide),
      fillStep_pair_getCells_self _ _ _ hhas1,
      fillStep_pair_getCells_ne _ _ (show ("rate" : String) ≠ costColName from by decide),
      getCells_of_getCol hget]
  have hnn_rate : ∀ cell ∈ u.getCells "rate", cell.isNull = false := by
    rw [hu4]
    exact fillStep_no_null_pres _ (fillStep_no_null_pres _ (fillStep_no_null_pres _
      (fillStep_no_null_est "rate" (Val.str "0 out of 5") rfl)))
  have hnn_cuis : ∀ cell ∈ u.getCells "cuisines", cell.isNull = false := by
    rw [hu4]
    exact fillStep_no_null_pres _
      (fillStep_no_null_est "cuisines" (Val.str "Unknown") rfl)
  have hnn_dish : ∀ cell ∈ u.getCells "dish_liked", cell.isNull = false := by
    rw [hu4]
    exact fillStep_no_null_est "dish_liked" (Val.str "Not Specified") rfl
  have hkey : (∀ cell ∈ u.getCells costColName, cell.isNull = false) ∧
      ∃ m2, colMedian (u.getCells costColName) = .ok m2 := by
    rcases colMedian_ok_elim hmed with ⟨vs, hvs, hser⟩
    cases m with
    | some q =>
      constructor
      · rw [hcost_cells]
        exact fillna_no_null (show (optVal (some q)).isNull = false from rfl) c.cells
      · rw [hcost_cells]
        have hfor : ∀ cell ∈ fillna c.cells (optVal (some q)),
            ∃ v2, cellFloat cell = .ok v2 := by
          intro cell hcell
          rw [fillna] at hcell
          rcases List.mem_map.mp hcell with ⟨c0, hc0, rfl⟩
          by_cases h0 : c0.isNull = true
          · rw [if_pos h0]
            exact ⟨some q, rfl⟩
          · rw [if_neg h0]
            exact forall_of_mapM_cellFloat_ok hvs c0 hc0
        rcases mapM_cellFloat_ok_of_forall hfor with ⟨vs2, hvs2⟩
        exact ⟨_, colMedian_ok_intro hvs2⟩
    | none =>
      have hall : ∀ cell ∈ c.cells, cell = .null := by
        apply forall2_cellFloat_none (mapM_cellFloat_forall2 hvs)
        intro v hv
        have hnil := seriesMedian_eq_none hser
        have hvn := List.filterMap_eq_nil_iff.mp hnil v hv
        simpa using hvn
      have hcd := hcmem.1
      rw [hmvDrop] at hcd
      have hpf := dropCols_filter_bound hcd
      have hple : ¬ (qnat df.nrows * MISSING_THRESHOLD < qnat c.missing) := by
        simpa using hpf
      have hcdf : c ∈ df.cols := (mem_dropCols hcd).1
      have hlen : c.cells.length = df.nrows := hr c hcdf
      have hmiss : c.missing = c.cells.length :=
        List.countP_eq_length.mpr (fun cell hcell => by rw [hall cell hcell]; rfl)
      have hn0 : df.nrows = 0 := by
        rw [hmiss, hlen] at hple
        rw [MISSING_THRESHOLD, qnat_cast] at hple
        have hnn : (0 : ℚ) ≤ (df.nrows : ℚ) := Nat.cast_nonneg _
        have h2 := not_lt.mp hple
        have h3 : (df.nrows : ℚ) = 0 := by linarith
        exact_mod_cast h3
      have hcnil : c.cells = [] := List.length_eq_zero.mp (hlen.trans hn0)
      constructor
      · intro cell hcell
        rw [hcost_cells, hcnil] at hcell
        cases hcell
      · rw [hcost_cells, hcnil]
        exact ⟨none, rfl⟩
  rcases hkey with ⟨hnn_cost, m2, hmed2⟩
  have hfix : ∀ p ∈ imputationFills (optVal m2), fillStep u p = u := by
    intro p hp
    rw [imputationFills] at hp
    simp only [List.mem_cons, List.not_mem_nil, or_false] at hp
    rcases hp with rfl | rfl | rfl | rfl
    · exact fillStep_eq_self_of_no_null hndu hnn_rate _
    · exact fillStep_eq_self_of_no_null hndu hnn_cost _
    · exact fillStep_eq_self_of_no_null hndu hnn_cuis _
    · exact fillStep_eq_self_of_no_null hndu hnn_dish _
  rcases getCol_isSome_of_hasCol hhc with ⟨c2, hget2⟩
  have hmed2b : colMedian c2.cells = .ok m2 := by
    rw [getCells_of_getCol hget2] at hmed2
    exact hmed2
  constructor
  · rw [hmv_eq u, hdrop2, hget2]
    show (colMedian c2.cells >>= fun mm =>
        pure ((imputationFills (optVal mm)).foldl fillStep u)) = Except.ok u
    rw [hmed2b, exceptBind_ok, exceptPure, foldl_fillStep_fix _ hfix]
  · intro n hn
    simp only [List.mem_cons, List.not_mem_nil, or_false] at hn
    rcases hn with rfl | rfl | rfl | rfl
    · exact hnn_rate
    · exact hnn_cost
    · exact hnn_cuis
    · exact hnn_dish

/-- C7: text normalization and missing-value imputation are idempotent.
`standardize_text_columns` applied to its own output yields an identical
table, for every table.  `handle_missing_values` applied to its own
successful output yields that same output again (for well-formed frames:
distinct column names and rectangular shape), and the re-application is a
no-op with no remaining nulls in the four targeted columns (`rate`, the
cost column, `cuisines`, `dish_liked`). -/
theorem claim_c7_idempotence :
    (∀ df : Table, standardize_text_columns (standardize_text_columns df) =
      standardize_text_columns df) ∧
    (∀ df u : Table, df.colNames.Nodup → df.Rect →
      handle_missing_values df = .ok u →
      handle_missing_values u = .ok u ∧
        ∀ n ∈ (["rate", costColName, "cuisines", "dish_liked"] : List String),
          ∀ cell ∈ u.getCells n, cell.isNull = false) :=
  ⟨std_idempotent, fun _ _ hnd hr h => hmv_idempotent hnd hr h⟩

/-- A two-row input frame for exercising the imputation: the rating and the
cost column each hold one value and one null. -/
def tW : Table :=
  ⟨[⟨"rate", [Val.str "4.1/5", Val.null]⟩,
    ⟨costColName, [Val.num 800, Val.null]⟩]⟩

/-- The imputed output of `handle_missing_values` on `tW`: the null rating
becomes the sentinel and the null cost becomes the cost median 800. -/
def tW2 : Table :=
  ⟨[⟨"rate", [Val.str "4.1/5", Val.str "0 out of 5"]⟩,
    ⟨costColName, [Val.num 800, Val.num 800]⟩]⟩

unseal Rat.mul Rat.add Rat.sub Rat.inv in
theorem claim_c7_idempotence_witness :
    tW.colNames.Nodup ∧ (∀ c ∈ tW.cols, c.cells.length = tW.nrows) ∧
      handle_missing_values tW = .ok tW2 ∧
      standardize_text_columns (standardize_text_columns tW) =
        standardize_text_columns tW ∧
      (handle_missing_values tW2 = .ok tW2 ∧
        ∀ n ∈ (["rate", costColName, "cuisines", "dish_liked"] : List String),
          ∀ cell ∈ tW2.getCells n, cell.isNull = false) :=
  ⟨by decide, by decide, by decide, claim_c7_idempotence.1 tW,
    claim_c7_idempotence.2 tW tW2 (by decide)
      (show ∀ c ∈ tW.cols, c.cells.length = tW.nrows from by decide) (by decide)⟩

/-!  ## Quantile monotonicity and the outlier-clipping theorem  -/

theorem listGetD_of_lt (ys : List ℚ) (d : ℚ) {i : ℕ} (h : i < ys.length) :
    ys.getD i d = ys.get ⟨i, h⟩ := by
  rw [List.getD_eq_getElem?_getD, List.getElem?_eq_getElem h]
  simp

theorem listGetD_of_ge (ys : List ℚ) (d : ℚ) {i : ℕ} (h : ys.length ≤ i) :
    ys.getD i d = d := by
  rw [List.getD_eq_getElem?_getD, List.getElem?_eq_none h]
  rfl

theorem floorToNat_cast {p : ℚ} (h0 : 0 ≤ p) :
    ((Rat.floor p).toNat : ℚ) = ((⌊p⌋ : ℤ) : ℚ) := by
  rw [ratFloor_eq]
  have h1 : ((⌊p⌋.toNat : ℤ)) = ⌊p⌋ := Int.toNat_of_nonneg (Int.floor_nonneg.mpr h0)
  exact_mod_cast h1

theorem floorToNat_le {p : ℚ} (h0 : 0 ≤ p) : ((Rat.floor p).toNat : ℚ) ≤ p := by
  rw [floorToNat_cast h0]
  exact Int.floor_le p

theorem lt_floorToNat_add_one {p : ℚ} (h0 : 0 ≤ p) :
    p < ((Rat.floor p).toNat : ℚ) + 1 := by
  rw [floorToNat_cast h0]
  exact Int.lt_floor_add_one p

theorem floorToNat_lt_length {p : ℚ} {n : ℕ} (h0 : 0 ≤ p) (hub : p ≤ (n : ℚ) - 1) :
    (Rat.floor p).toNat < n := by
  rw [ratFloor_eq]
  have h1 : (0:ℤ) ≤ ⌊p⌋ := Int.floor_nonneg.mpr h0
  have h4 : p ≤ (((n:ℤ) - 1 : ℤ) : ℚ) := by
    push_cast
    exact hub
  have h5 := Int.floor_mono h4
  rw [Int.floor_intCast] at h5
  omega

theorem interpAt_eq (ys : List ℚ) (p : ℚ) :
    interpAt ys p =
      ys.getD (Rat.floor p).toNat 0 +
        (p - qnat (Rat.floor p).toNat) *
          (ys.getD ((Rat.floor p).toNat + 1) (ys.getD (Rat.floor p).toNat 0) -
            ys.getD (Rat.floor p).toNat 0) := rfl

theorem sorted_getD_le {ys : List ℚ} (hy : List.Sorted (· ≤ ·) ys) {i j : ℕ}
    (hij : i ≤ j) (hj : j < ys.length) (d d2 : ℚ) :
    ys.getD i d ≤ ys.getD j d2 := by
  have hi : i < ys.length := Nat.lt_of_le_of_lt hij hj
  rw [listGetD_of_lt ys d hi, listGetD_of_lt ys d2 hj]
  exact List.Sorted.rel_get_of_le hy (by simpa using hij)

theorem getD_succ_bound {ys : List ℚ} (hy : List.Sorted (· ≤ ·) ys) {i : ℕ}
    (hi : i < ys.length) :
    ys.getD i 0 ≤ ys.getD (i + 1) (ys.getD i 0) := by
  by_cases hlen : i + 1 < ys.length
  · exact sorted_getD_le hy (Nat.le_succ i) hlen 0 _
  · rw [listGetD_of_ge ys _ (Nat.le_of_not_lt hlen)]

theorem interpAt_mono {ys : List ℚ} (hy : List.Sorted (· ≤ ·) ys) {p p2 : ℚ}
    (h0 : 0 ≤ p) (hpp : p ≤ p2) (hub : p2 ≤ (ys.length : ℚ) - 1) :
    interpAt ys p ≤ interpAt ys p2 := by
  have h02 : 0 ≤ p2 := le_trans h0 hpp
  have hup : p ≤ (ys.length : ℚ) - 1 := le_trans hpp hub
  have hi1 : (Rat.floor p).toNat < ys.length := floorToNat_lt_length h0 hup
  have hi2 : (Rat.floor p2).toNat < ys.length := floorToNat_lt_length h02 hub
  have hfle : (Rat.floor p).toNat ≤ (Rat.floor p2).toNat := by
    rw [ratFloor_eq, ratFloor_eq]
    exact Int.toNat_le_toNat (Int.floor_mono hpp)
  have hple2 : ((Rat.floor p2).toNat : ℚ) ≤ p2 := floorToNat_le h02
  have hplt1 : p < ((Rat.floor p).toNat : ℚ) + 1 := lt_floorToNat_add_one h0
  have hple1 : ((Rat.floor p).toNat : ℚ) ≤ p := floorToNat_le h0
  have hba1 : ys.getD (Rat.floor p).toNat 0 ≤
      ys.getD ((Rat.floor p).toNat + 1) (ys.getD (Rat.floor p).toNat 0) :=
    getD_succ_bound hy hi1
  have hba2 : ys.getD (Rat.floor p2).toNat 0 ≤
      ys.getD ((Rat.floor p2).toNat + 1) (ys.getD (Rat.floor p2).toNat 0) :=
    getD_succ_bound hy hi2
  rw [interpAt_eq, interpAt_eq, qnat_cast, qnat_cast]
  rcases Nat.eq_or_lt_of_le hfle with heq | hlt
  · rw [← heq]
    have hnn : (0:ℚ) ≤ ys.getD ((Rat.floor p).toNat + 1) (ys.getD (Rat.floor p).toNat 0) -
        ys.getD (Rat.floor p).toNat 0 := sub_nonneg.mpr hba1
    have hmul := mul_le_mul_of_nonneg_right
      (sub_le_sub_right hpp (((Rat.floor p).toNat : ℚ))) hnn
    linarith
  · have hup1 : ys.getD (Rat.floor p).toNat 0 +
        (p - ((Rat.floor p).toNat : ℚ)) *
          (ys.getD ((Rat.floor p).toNat + 1) (ys.getD (Rat.floor p).toNat 0) -
            ys.getD (Rat.floor p).toNat 0) ≤
        ys.getD ((Rat.floor p).toNat + 1) (ys.getD (Rat.floor p).toNat 0) := by
      nlinarith [mul_nonneg (by linarith : (0:ℚ) ≤ 1 - (p - ((Rat.floor p).toNat : ℚ)))
        (sub_nonneg.mpr hba1)]
    have hlow2 : ys.getD (Rat.floor p2).toNat 0 ≤
        ys.getD (Rat.floor p2).toNat 0 +
          (p2 - ((Rat.floor p2).toNat : ℚ)) *
            (ys.getD ((Rat.floor p2).toNat + 1) (ys.getD (Rat.floor p2).toNat 0) -
              ys.getD (Rat.floor p2).toNat 0) := by
      nlinarith [mul_nonneg (sub_nonneg.mpr hple2) (sub_nonneg.mpr hba2)]
    have hmid : ys.getD ((Rat.floor p).toNat + 1) (ys.getD (Rat.floor p).toNat 0) ≤
        ys.getD (Rat.floor p2).toNat 0 :=
      sorted_getD_le hy (Nat.succ_le_of_lt hlt) hi2 _ _
    linarith

theorem quantile_mono {xs : List ℚ} {qa qb va vb : ℚ} (h0 : 0 ≤ qa) (hab : qa ≤ qb)
    (hb1 : qb ≤ 1) (ha : quantile xs qa = some va) (hb : quantile xs qb = some vb) :
    va ≤ vb := by
  cases xs with
  | nil => cases ha
  | cons x l =>
    rw [quantile] at ha hb
    have hva := Option.some.inj ha
    have hvb := Option.some.inj hb
    rw [← hva, ← hvb, qnat_cast]
    have hn1 : 1 ≤ (x :: l).length := Nat.succ_le_succ (Nat.zero_le _)
    have hN : (0:ℚ) ≤ ((x :: l).length : ℚ) - 1 := by
      have h2 : (1:ℚ) ≤ ((x :: l).length : ℚ) := by exact_mod_cast hn1
      linarith
    have hlen : ((x :: l).insertionSort (· ≤ ·)).length = (x :: l).length :=
      List.length_insertionSort _ _
    apply interpAt_mono (List.sorted_insertionSort _ _)
    · exact mul_nonneg h0 hN
    · exact mul_le_mul_of_nonneg_right hab hN
    · rw [hlen]
      have h3 := mul_le_mul_of_nonneg_right hb1 hN
      linarith

theorem clipQ_mem {x lo hi : ℚ} (h : lo ≤ hi) : lo ≤ clipQ x lo hi ∧ clipQ x lo hi ≤ hi :=
  ⟨le_min (le_max_right x lo) h, min_le_right _ _⟩

theorem countP_toNum_filterMap (cells : List Val) (p : ℚ → Bool) :
    (cells.filterMap Val.toNum).countP p =
      cells.countP (fun v =>
        match v.toNum with
        | some x => p x
        | none => false) := by
  induction cells with
  | nil => rfl
  | cons v vs ih =>
    rw [List.countP_cons]
    cases hv : v.toNum with
    | none =>
      rw [List.filterMap_cons_none hv, ih]
      simp
    | some x =>
      rw [List.filterMap_cons_some hv, List.countP_cons, ih]

theorem outlierStep_eq (t : Table) (col : String) :
    outlierStep t col =
      match t.getCol col with
      | none => .ok (t, [])
      | some c =>
        if c.cells.any (·.isStr) then .error "TypeError: quantile on non-numeric data"
        else
          match quantile (c.cells.filterMap Val.toNum) (1/4),
              quantile (c.cells.filterMap Val.toNum) (3/4) with
          | some q1, some q3 =>
            .ok (t.setCol col (c.cells.map (fun v =>
              match v.toNum with
              | some x => Val.num (clipQ x
                  (q1 - OUTLIER_IQR_MULTIPLIER * (q3 - q1))
                  (q3 + OUTLIER_IQR_MULTIPLIER * (q3 - q1)))
              | none => Val.null)),
              [(col, c.cells.countP (fun v =>
                match v.toNum with
                | some x =>
                    decide (x < q1 - OUTLIER_IQR_MULTIPLIER * (q3 - q1)) ||
                      decide (q3 + OUTLIER_IQR_MULTIPLIER * (q3 - q1) < x)
                | none => false))])
          | _, _ => .ok (t, [(col, 0)]) := rfl

theorem outlierStep_shape {t : Table} {col : String} {pr : Table × List (String × ℕ)}
    (h : outlierStep t col = .ok pr) :
    pr.1.nrows = t.nrows ∧ pr.1.ncols = t.ncols ∧ pr.1.colNames = t.colNames := by
  rw [outlierStep_eq] at h
  split at h
  · rw [← Except.ok.inj h]
    exact ⟨rfl, rfl, rfl⟩
  · next c hget =>
    split at h
    · cases h
    · split at h
      · rw [← Except.ok.inj h]
        refine ⟨?_, Table.ncols_setCol t col _, Table.colNames_setCol t col _⟩
        apply nrows_setCol_preserve
        rw [List.length_map, getCells_of_getCol hget]
      · rw [← Except.ok.inj h]
        exact ⟨rfl, rfl, rfl⟩

theorem outlierStep_getCells_other {t : Table} {col : String}
    {pr : Table × List (String × ℕ)}
    (h : outlierStep t col = .ok pr) {n : String} (hn : col ≠ n) :
    pr.1.getCells n = t.getCells n := by
  rw [outlierStep_eq] at h
  split at h
  · rw [← Except.ok.inj h]
  · next c hget =>
    split at h
    · cases h
    · split at h
      · rw [← Except.ok.inj h]
        exact Table.getCells_setCol_ne _ hn
      · rw [← Except.ok.inj h]

theorem outlierStep_some_eq {t : Table} {col : String} {c : Col} {q1 q3 : ℚ}
    (hget : t.getCol col = some c) (hnum : c.cells.any (·.isStr) = false)
    (hq1 : quantile (c.cells.filterMap Val.toNum) (1/4) = some q1)
    (hq3 : quantile (c.cells.filterMap Val.toNum) (3/4) = some q3) :
    outlierStep t col = .ok (t.setCol col (c.cells.map (fun v =>
        match v.toNum with
        | some x => Val.num (clipQ x (q1 - OUTLIER_IQR_MULTIPLIER * (q3 - q1))
            (q3 + OUTLIER_IQR_MULTIPLIER * (q3 - q1)))
        | none => Val.null)),
      [(col, c.cells.countP (fun v =>
        match v.toNum with
        | some x => decide (x < q1 - OUTLIER_IQR_MULTIPLIER * (q3 - q1)) ||
            decide (q3 + OUTLIER_IQR_MULTIPLIER * (q3 - q1) < x)
        | none => false))]) := by
  simp only [outlierStep_eq, hget, hnum, hq1, hq3, Bool.false_eq_true, if_false]

/-- C4: outlier handling computes the IQR bounds of each treated column from
its 25th and 75th percentiles, counts the values outside
`[Q1 - 1.5*IQR, Q3 + 1.5*IQR]`, and clips (never removes) them into range:
after the step no numeric value of the column lies outside the bounds, the
reported count is exactly the number of non-missing values that were outside,
and the row and column counts are unchanged.  The full `handle_outliers`
treats `rate_clean` then `cost_for_two` and returns the concatenated
per-column report, preserving the frame shape. -/
theorem claim_c4_outlier_clipping :
    (∀ (t : Table) (col : String) (c : Col) (q1 q3 : ℚ),
      t.getCol col = some c →
      c.cells.any (·.isStr) = false →
      quantile (c.cells.filterMap Val.toNum) (1/4) = some q1 →
      quantile (c.cells.filterMap Val.toNum) (3/4) = some q3 →
      ∃ u, outlierStep t col =
          .ok (u, [(col, (c.cells.filterMap Val.toNum).countP (fun x =>
            decide (x < q1 - OUTLIER_IQR_MULTIPLIER * (q3 - q1)) ||
              decide (q3 + OUTLIER_IQR_MULTIPLIER * (q3 - q1) < x)))]) ∧
        (∀ x ∈ (u.getCells col).filterMap Val.toNum,
          q1 - OUTLIER_IQR_MULTIPLIER * (q3 - q1) ≤ x ∧
            x ≤ q3 + OUTLIER_IQR_MULTIPLIER * (q3 - q1)) ∧
        u.nrows = t.nrows ∧ u.ncols = t.ncols) ∧
    (∀ (df : Table) (pr : Table × List (String × ℕ)),
      handle_outliers df = .ok pr →
      pr.1.nrows = df.nrows ∧ pr.1.ncols = df.ncols ∧ pr.1.colNames = df.colNames ∧
      ∃ pr1 pr2, outlierStep df "rate_clean" = .ok pr1 ∧
        outlierStep pr1.1 "cost_for_two" = .ok pr2 ∧
        pr.1 = pr2.1 ∧ pr.2 = pr1.2 ++ pr2.2 ∧
        pr.1.getCells "rate_clean" = pr1.1.getCells "rate_clean") := by
  constructor
  · intro t col c q1 q3 hget hnum hq1 hq3
    have hq13 : q1 ≤ q3 :=
      quantile_mono (by norm_num) (by norm_num) (by norm_num) hq1 hq3
    have hmul0 : (0:ℚ) ≤ OUTLIER_IQR_MULTIPLIER * (q3 - q1) := by
      rw [OUTLIER_IQR_MULTIPLIER]
      nlinarith
    have hlohi : q1 - OUTLIER_IQR_MULTIPLIER * (q3 - q1) ≤
        q3 + OUTLIER_IQR_MULTIPLIER * (q3 - q1) := by linarith
    refine ⟨t.setCol col (c.cells.map (fun v =>
        match v.toNum with
        | some x => Val.num (clipQ x (q1 - OUTLIER_IQR_MULTIPLIER * (q3 - q1))
            (q3 + OUTLIER_IQR_MULTIPLIER * (q3 - q1)))
        | none => Val.null)), ?_, ?_, ?_, ?_⟩
    · rw [outlierStep_some_eq hget hnum hq1 hq3, countP_toNum_filterMap]
    · intro x hx
      rw [Table.getCells_setCol_self _ (hasCol_of_getCol hget)] at hx
      rcases List.mem_filterMap.mp hx with ⟨v, hv, hvx⟩
      rcases List.mem_map.mp hv with ⟨v0, hv0, rfl⟩
      cases h0 : v0.toNum with
      | none =>
        simp only [h0] at hvx
        cases hvx
      | some x0 =>
        simp only [h0] at hvx
        have hx2 : some (clipQ x0 (q1 - OUTLIER_IQR_MULTIPLIER * (q3 - q1))
            (q3 + OUTLIER_IQR_MULTIPLIER * (q3 - q1))) = some x := hvx
        rw [← Option.some.inj hx2]
        exact clipQ_mem hlohi
    · apply nrows_setCol_preserve
      rw [List.length_map, getCells_of_getCol hget]
    · exact Table.ncols_setCol t col _
  · intro df pr h
    rw [handle_outliers] at h
    cases h1 : outlierStep df "rate_clean" with
    | error e =>
      rw [h1, exceptBind_error] at h
      cases h
    | ok pr1 =>
      rw [h1, exceptBind_ok] at h
      have hx : (outlierStep pr1.1 "cost_for_two" >>= fun p2 =>
          (pure (p2.1, pr1.2 ++ p2.2) :
            Except String (Table × List (String × ℕ)))) = .ok pr := h
      cases h2 : outlierStep pr1.1 "cost_for_two" with
      | error e =>
        rw [h2, exceptBind_error] at hx
        cases hx
      | ok pr2 =>
        rw [h2, exceptBind_ok] at hx
        have hy : (pure (pr2.1, pr1.2 ++ pr2.2) :
            Except String (Table × List (String × ℕ))) = .ok pr := hx
        rw [exceptPure] at hy
        have h3 := Except.ok.inj hy
        rcases outlierStep_shape h1 with ⟨ha1, ha2, ha3⟩
        rcases outlierStep_shape h2 with ⟨hb1, hb2, hb3⟩
        have hfst : pr2.1 = pr.1 := by rw [← h3]
        have hsnd : pr1.2 ++ pr2.2 = pr.2 := by rw [← h3]
        refine ⟨?_, ?_, ?_, pr1, pr2, rfl, h2, hfst.symm, hsnd.symm, ?_⟩
        · rw [← hfst, hb1, ha1]
        · rw [← hfst, hb2, ha2]
        · rw [← hfst, hb3, ha3]
        · rw [← hfst]
          exact outlierStep_getCells_other h2 (by decide)

/-- A one-column frame with an obvious outlier at 100. -/
def tO : Table := ⟨[⟨"rate_clean", [Val.num 1, Val.num 2, Val.num 3, Val.num 100]⟩]⟩

/-- The single column of `tO`. -/
def cO : Col := ⟨"rate_clean", [Val.num 1, Val.num 2, Val.num 3, Val.num 100]⟩

/-- `tO` after clipping: 100 is capped at the upper bound `131/2 = 65.5`. -/
def tOc : Table := ⟨[⟨"rate_clean", [Val.num 1, Val.num 2, Val.num 3, Val.num (131/2)]⟩]⟩

unseal Rat.mul Rat.add Rat.sub Rat.inv in
theorem claim_c4_outlier_clipping_witness :
    (tO.getCol "rate_clean" = some cO ∧
      cO.cells.any (·.isStr) = false ∧
      quantile (cO.cells.filterMap Val.toNum) (1/4) = some (7/4) ∧
      quantile (cO.cells.filterMap Val.toNum) (3/4) = some (109/4) ∧
      (∃ u, outlierStep tO "rate_clean" =
          .ok (u, [("rate_clean", (cO.cells.filterMap Val.toNum).countP (fun x =>
            decide (x < 7/4 - OUTLIER_IQR_MULTIPLIER * (109/4 - 7/4)) ||
              decide (109/4 + OUTLIER_IQR_MULTIPLIER * (109/4 - 7/4) < x)))]) ∧
        (∀ x ∈ (u.getCells "rate_clean").filterMap Val.toNum,
          7/4 - OUTLIER_IQR_MULTIPLIER * (109/4 - 7/4) ≤ x ∧
            x ≤ 109/4 + OUTLIER_IQR_MULTIPLIER * (109/4 - 7/4)) ∧
        u.nrows = tO.nrows ∧ u.ncols = tO.ncols)) ∧
    (handle_outliers tO = .ok (tOc, [("rate_clean", 1)]) ∧
      ((tOc, [("rate_clean", 1)]) :
          Table × List (String × ℕ)).1.nrows = tO.nrows ∧
      (tOc, [("rate_clean", 1)]).1.ncols = tO.ncols ∧
      (tOc, [("rate_clean", 1)]).1.colNames = tO.colNames ∧
      ∃ pr1 pr2, outlierStep tO "rate_clean" = .ok pr1 ∧
        outlierStep pr1.1 "cost_for_two" = .ok pr2 ∧
        (tOc, [("rate_clean", 1)]).1 = pr2.1 ∧
        (tOc, [("rate_clean", 1)]).2 = pr1.2 ++ pr2.2 ∧
        (tOc, [("rate_clean", 1)]).1.getCells "rate_clean" =
          pr1.1.getCells "rate_clean") :=
  ⟨⟨by decide, by decide, by decide, by decide,
    claim_c4_outlier_clipping.1 tO "rate_clean" cO (7/4) (109/4)
      (by decide) (by decide) (by decide) (by decide)⟩,
   by decide,
   claim_c4_outlier_clipping.2 tO (tOc, [("rate_clean", 1)]) (by decide)⟩

/-!  ## Deduplication (`remove_duplicates`)  -/

theorem dedupFirstAux_sublist (seen : List (List Val)) :
    ∀ l, (dedupFirstAux seen l).Sublist l
  | [] => List.Sublist.refl []
  | r :: rs => by
    rw [dedupFirstAux]
    split
    · exact (dedupFirstAux_sublist seen rs).cons r
    · exact (dedupFirstAux_sublist (r :: seen) rs).cons₂ r

theorem mem_dedupFirstAux : ∀ (l seen : List (List Val)) (r : List Val),
    r ∈ dedupFirstAux seen l ↔ r ∈ l ∧ r ∉ seen := by
  intro l
  induction l with
  | nil =>
    intro seen r
    rw [dedupFirstAux]
    simp
  | cons x xs ih =>
    intro seen r
    rw [dedupFirstAux]
    split
    · next hx =>
      rw [ih seen r]
      constructor
      · exact fun h => ⟨List.mem_cons_of_mem x h.1, h.2⟩
      · rintro ⟨hm, hns⟩
        rcases List.mem_cons.mp hm with rfl | hm2
        · exact absurd hx hns
        · exact ⟨hm2, hns⟩
    · next hx =>
      rw [List.mem_cons, ih (x :: seen) r]
      constructor
      · rintro (rfl | ⟨hm, hns⟩)
        · exact ⟨List.mem_cons_self _ _, hx⟩
        · exact ⟨List.mem_cons_of_mem x hm,
            fun hs => hns (List.mem_cons_of_mem x hs)⟩
      · rintro ⟨hm, hns⟩
        by_cases hrx : r = x
        · exact Or.inl hrx
        · rcases List.mem_cons.mp hm with rfl | hm2
          · exact Or.inl rfl
          · refine Or.inr ⟨hm2, fun hs => ?_⟩
            rcases List.mem_cons.mp hs with h3 | h3
            · exact hrx h3
            · exact hns h3

theorem nodup_dedupFirstAux : ∀ (l seen : List (List Val)),
    (dedupFirstAux seen l).Nodup := by
  intro l
  induction l with
  | nil =>
    intro seen
    rw [dedupFirstAux]
    exact List.nodup_nil
  | cons x xs ih =>
    intro seen
    rw [dedupFirstAux]
    split
    · exact ih seen
    · rw [List.nodup_cons]
      refine ⟨fun hmem => ?_, ih (x :: seen)⟩
      exact ((mem_dedupFirstAux xs (x :: seen) x).mp hmem).2 (List.mem_cons_self _ _)

theorem dedupFirstAux_congr_seen : ∀ (l seen1 seen2 : List (List Val)),
    (∀ r, r ∈ seen1 ↔ r ∈ seen2) → dedupFirstAux seen1 l = dedupFirstAux seen2 l := by
  intro l
  induction l with
  | nil =>
    intro seen1 seen2 _
    rfl
  | cons x xs ih =>
    intro seen1 seen2 hiff
    rw [dedupFirstAux, dedupFirstAux]
    by_cases hx : x ∈ seen1
    · rw [if_pos hx, if_pos ((hiff x).mp hx)]
      exact ih seen1 seen2 hiff
    · rw [if_neg hx, if_neg (fun h2 => hx ((hiff x).mpr h2))]
      refine congrArg (List.cons x) (ih _ _ fun r => ?_)
      rw [List.mem_cons, List.mem_cons, hiff r]

theorem dedupFirstAux_seen_filter : ∀ (l : List (List Val)) (seen : List (List Val))
    (r : List Val), dedupFirstAux (r :: seen) l =
      dedupFirstAux seen (l.filter (fun r2 => !decide (r2 = r))) := by
  intro l
  induction l with
  | nil =>
    intro seen r
    rfl
  | cons x xs ih =>
    intro seen r
    rw [dedupFirstAux]
    by_cases hxr : x = r
    · subst hxr
      rw [if_pos (List.mem_cons_self _ _)]
      rw [List.filter_cons_of_neg (by simp)]
      exact ih seen x
    · rw [List.filter_cons_of_pos (by simp [hxr]), dedupFirstAux]
      by_cases hxs : x ∈ seen
      · rw [if_pos (List.mem_cons_of_mem r hxs), if_pos hxs]
        exact ih seen r
      · have hnx : x ∉ r :: seen := by
          intro h2
          rcases List.mem_cons.mp h2 with h3 | h3
          · exact hxr h3
          · exact hxs h3
        rw [if_neg hnx, if_neg hxs]
        refine congrArg (List.cons x) ?_
        rw [← ih (x :: seen) r]
        exact dedupFirstAux_congr_seen xs _ _ (fun r2 => by
          rw [List.mem_cons, List.mem_cons, List.mem_cons, List.mem_cons]
          tauto)

theorem dedupFirst_cons (r : List Val) (rs : List (List Val)) :
    dedupFirst (r :: rs) = r :: dedupFirst (rs.filter (fun r2 => !decide (r2 = r))) := by
  rw [dedupFirst, dedupFirstAux, if_neg (List.not_mem_nil r), dedupFirst]
  exact congrArg (List.cons r) (dedupFirstAux_seen_filter rs [] r)

theorem colsFrom_names : ∀ (names : List String) (rws : List (List Val)) (k : ℕ),
    (colsFrom rws names k).map Col.name = names := by
  intro names
  induction names with
  | nil =>
    intro rws k
    rfl
  | cons n ns ih =>
    intro rws k
    rw [colsFrom, List.map_cons, ih rws (k + 1)]

theorem range_map_getD {α : Type} (d : α) : ∀ (r : List α),
    (List.range r.length).map (fun j => r.getD j d) = r := by
  intro r
  induction r with
  | nil => rfl
  | cons v r2 ih =>
    rw [List.length_cons, List.range_succ_eq_map, List.map_cons, List.map_map]
    refine congrArg₂ List.cons rfl ?_
    rw [show ((fun j => List.getD (v :: r2) j d) ∘ Nat.succ) =
        (fun j => r2.getD j d) from rfl]
    exact ih

theorem colsFrom_row : ∀ (names : List String) (k : ℕ) (rws : List (List Val))
    (i : ℕ), i < rws.length →
    (colsFrom rws names k).map (fun c => c.cells.getD i .null) =
      (List.range names.length).map (fun j => (rws.getD i []).getD (k + j) .null) := by
  intro names
  induction names with
  | nil =>
    intro k rws i _
    rfl
  | cons n ns ih =>
    intro k rws i hi
    rw [colsFrom, List.map_cons, List.length_cons, List.range_succ_eq_map,
      List.map_cons, List.map_map]
    refine congrArg₂ List.cons ?_ ?_
    · rw [List.getD_eq_getElem?_getD, List.getElem?_map, List.getElem?_eq_getElem hi]
      rw [show rws.getD i [] = rws[i] from by
        rw [List.getD_eq_getElem?_getD, List.getElem?_eq_getElem hi]
        rfl]
      rfl
    · rw [ih (k + 1) rws i hi]
      refine List.map_congr_left fun j _ => ?_
      rw [show k + 1 + j = k + (j + 1) from by omega]
      rfl

theorem length_rows (t : Table) : t.rows.length = t.nrows := by
  rw [Table.rows, List.length_map, List.length_range]

theorem length_mem_rows {df : Table} {r : List Val} (h : r ∈ df.rows) :
    r.length = df.ncols := by
  rw [Table.rows] at h
  rcases List.mem_map.mp h with ⟨i, _, rfl⟩
  rw [Table.row, List.length_map, Table.ncols]

theorem nrows_fromRows (n : String) (ns : List String) (rws : List (List Val)) :
    (Table.fromRows (n :: ns) rws).nrows = rws.length := by
  rw [Table.fromRows, colsFrom, Table.nrows]
  simp

theorem rows_fromRows (names : List String) (hne : names ≠ [])
    (rws : List (List Val)) (hlen : ∀ r ∈ rws, r.length = names.length) :
    (Table.fromRows names rws).rows = rws := by
  cases names with
  | nil => exact absurd rfl hne
  | cons n ns =>
    rw [Table.rows, nrows_fromRows]
    have hrow : ∀ i ∈ List.range rws.length,
        (Table.fromRows (n :: ns) rws).row i = rws.getD i [] := by
      intro i hi
      have hi2 : i < rws.length := List.mem_range.mp hi
      rw [Table.row, Table.fromRows]
      rw [show (Table.mk (colsFrom rws (n :: ns) 0)).cols = colsFrom rws (n :: ns) 0
        from rfl]
      rw [colsFrom_row (n :: ns) 0 rws i hi2]
      have hr : rws.getD i [] ∈ rws := by
        rw [List.getD_eq_getElem?_getD, List.getElem?_eq_getElem hi2]
        exact List.getElem_mem _
      have hrl : (rws.getD i []).length = (n :: ns).length := hlen _ hr
      rw [show (List.range (n :: ns).length).map
            (fun j => (rws.getD i []).getD (0 + j) .null) =
          (List.range (rws.getD i []).length).map
            (fun j => (rws.getD i []).getD j .null) from by
        rw [hrl]
        exact List.map_congr_left fun j _ => by rw [Nat.zero_add]]
      exact range_map_getD Val.null (rws.getD i [])
    rw [List.map_congr_left hrow]
    exact range_map_getD [] rws

/-- C8: `remove_duplicates` drops exactly the rows that duplicate an earlier
row across all columns.  The output rows are `dedupFirst` of the input rows:
a duplicate-free subsequence of the input rows (so relative order of the
survivors is preserved and the row count can only shrink) containing every
distinct input row; the head of the list is always kept and later exact
copies of it are removed (first occurrence wins).  The column list is
unchanged, so the column count is also unchanged (hence at most its previous
value). -/
theorem claim_c8_remove_duplicates :
    (∀ df : Table,
      (remove_duplicates df).colNames = df.colNames ∧
      (remove_duplicates df).ncols = df.ncols ∧
      (remove_duplicates df).rows = dedupFirst df.rows ∧
      (remove_duplicates df).nrows ≤ df.nrows) ∧
    (∀ l : List (List Val),
      (dedupFirst l).Sublist l ∧ (dedupFirst l).Nodup ∧
      (∀ r, r ∈ dedupFirst l ↔ r ∈ l)) ∧
    (∀ (r : List Val) (rs : List (List Val)),
      dedupFirst (r :: rs) =
        r :: dedupFirst (rs.filter (fun r2 => !decide (r2 = r)))) := by
  refine ⟨fun df => ?_, fun l => ?_, dedupFirst_cons⟩
  · have hrows : (remove_duplicates df).rows = dedupFirst df.rows := by
      cases hc : df.cols with
      | nil =>
        have hdfrows : df.rows = [] := by
          rw [Table.rows, Table.nrows, hc]
          rfl
        have hnames : df.colNames = [] := by
          rw [Table.colNames, hc]
          rfl
        rw [remove_duplicates, hdfrows, hnames]
        rfl
      | cons c cs =>
        rw [remove_duplicates]
        apply rows_fromRows
        · rw [Table.colNames, hc]
          simp
        · intro r hr
          have hmem : r ∈ df.rows := ((mem_dedupFirstAux df.rows [] r).mp hr).1
          rw [length_mem_rows hmem, Table.colNames, List.length_map, Table.ncols]
    have hnames : (remove_duplicates df).colNames = df.colNames := by
      show (colsFrom (dedupFirst df.rows) df.colNames 0).map Col.name = df.colNames
      exact colsFrom_names df.colNames (dedupFirst df.rows) 0
    have hncols : (remove_duplicates df).ncols = df.ncols := by
      have h2 := congrArg List.length (colsFrom_names df.colNames (dedupFirst df.rows) 0)
      rw [List.length_map] at h2
      have h3 : df.colNames.length = df.ncols := by
        rw [Table.colNames, List.length_map, Table.ncols]
      rw [← h3]
      exact h2
    refine ⟨hnames, hncols, hrows, ?_⟩
    rw [← length_rows (remove_duplicates df), ← length_rows df, hrows]
    exact List.Sublist.length_le (dedupFirstAux_sublist [] df.rows)
  · refine ⟨dedupFirstAux_sublist [] l, nodup_dedupFirstAux l [], fun r => ?_⟩
    rw [show dedupFirst l = dedupFirstAux [] l from rfl, mem_dedupFirstAux l [] r]
    simp

/-- C10: every transformation leaves its input frame unchanged.  In the
object-store model each operation first copies the referenced frame
(`df.copy()` / the fresh frame returned by `drop_duplicates`), and every
subsequent in-place write targets the copy, so after any of the six
operations the original reference still dereferences to the original
frame -- the snapshot used later for delta metrics is never mutated. -/
theorem claim_c10_frame_effects :
    ∀ (s : Store) (df : Ref), df < s.length →
      (∀ s2 r, hmvProg s df = .ok (s2, r) → readRef s2 df = readRef s df) ∧
      readRef (rdProg s df).1 df = readRef s df ∧
      readRef (stdProg s df).1 df = readRef s df ∧
      readRef (cdtProg s df).1 df = readRef s df ∧
      (∀ s2 r, outProg s df = .ok (s2, r) → readRef s2 df = readRef s df) ∧
      (∀ s2 r, cfProg s df = .ok (s2, r) → readRef s2 df = readRef s df) :=
  fun s df h =>
    ⟨fun _ _ he => hmvProg_frame h he,
     rdProg_frame h, stdProg_frame h, cdtProg_frame h,
     fun _ _ he => outProg_frame h he,
     fun _ _ he => cfProg_frame h he⟩

unseal Rat.mul Rat.add Rat.sub Rat.inv in
theorem claim_c10_frame_effects_witness :
    0 < ([tW] : Store).length ∧
    hmvProg [tW] 0 = .ok ([tW, tW2], 1) ∧
    readRef [tW, tW2] 0 = readRef [tW] 0 ∧
    readRef (rdProg [tW] 0).1 0 = readRef [tW] 0 ∧
    readRef (stdProg [tW] 0).1 0 = readRef [tW] 0 ∧
    readRef (cdtProg [tW] 0).1 0 = readRef [tW] 0 ∧
    outProg [tW] 0 = .ok ([tW, tW], 1) ∧
    readRef ([tW, tW] : Store) 0 = readRef [tW] 0 ∧
    cfProg [tW] 0 = .ok ([tW, tW], 1) ∧
    readRef ([tW, tW] : Store) 0 = readRef [tW] 0 :=
  ⟨by decide,
   by decide,
   (claim_c10_frame_effects [tW] 0 (by decide)).1 [tW, tW2] 1 (by decide),
   (claim_c10_frame_effects [tW] 0 (by decide)).2.1,
   (claim_c10_frame_effects [tW] 0 (by decide)).2.2.1,
   (claim_c10_frame_effects [tW] 0 (by decide)).2.2.2.1,
   by decide,
   (claim_c10_frame_effects [tW] 0 (by decide)).2.2.2.2.1 [tW, tW] 1 (by decide),
   by decide,
   (claim_c10_frame_effects [tW] 0 (by decide)).2.2.2.2.2 [tW, tW] 1 (by decide)⟩
